import Mathlib

/-!
# Verification of the max-flow / min-cut core (`network_flow.py`)

This file gives a shallow embedding of the repository's algorithmic core
(`network_flow.py`) and proves, or refutes, the specification claims about it.

The source manipulates a `networkx.DiGraph`: an insertion-ordered dictionary
mapping each node to an insertion-ordered dictionary of successors, every edge
carrying a `capacity` attribute and (after preparation) a `flow` attribute.
We model this with association lists that preserve insertion order, so that
every iteration order of the Python code (node order, adjacency order, queue
and stack order) is reproduced exactly.  Numeric attributes are embedded as
exact rationals `ℚ`; the Python value `float('inf')` (used only as the initial
bottleneck of an augmenting search) is embedded as `⊤ : WithTop ℚ`.

An edge's `flow` attribute is an `Option ℚ`: `none` models the attribute being
absent from the Python edge-attribute dictionary (as on a freshly built graph,
before `prepare_graph` runs `setdefault`).
-/

abbrev Node := String

structure EdgeData where
  capacity : ℚ
  flow : Option ℚ
  deriving DecidableEq, Repr

/-- A directed graph in networkx style: an insertion-ordered adjacency map.
Each entry is a node together with its insertion-ordered successor list. -/
structure Graph where
  adj : List (Node × List (Node × EdgeData))
  deriving DecidableEq, Repr

namespace Graph

/-- `G.nodes()`: the node list in insertion order. -/
def nodes (G : Graph) : List Node := G.adj.map Prod.fst

def hasNode (G : Graph) (u : Node) : Bool := (G.adj.find? (fun p => p.1 == u)).isSome

/-- The successor dictionary of `u` (empty if `u` is not a node;
Python raises `KeyError` there, which is modelled explicitly at the call
sites where the source can actually reach that state). -/
def succPairs (G : Graph) (u : Node) : List (Node × EdgeData) :=
  ((G.adj.find? (fun p => p.1 == u)).map Prod.snd).getD []

/-- `list(G[u])`: successor keys of `u` in insertion order. -/
def succList (G : Graph) (u : Node) : List Node := (G.succPairs u).map Prod.fst

def getEdge? (G : Graph) (u v : Node) : Option EdgeData :=
  ((G.succPairs u).find? (fun p => p.1 == v)).map Prod.snd

def hasEdge (G : Graph) (u v : Node) : Bool := (G.getEdge? u v).isSome

/-- `G[u][v]['capacity']` (0 if the edge is absent; the source only reads
capacities of edges obtained from the adjacency structure itself). -/
def capD (G : Graph) (u v : Node) : ℚ :=
  ((G.getEdge? u v).map EdgeData.capacity).getD 0

/-- `G[u][v]['flow']` (0 if the edge or the attribute is absent; after
`prepare_graph` every edge has the attribute, so the default is never
exercised by the algorithms). -/
def flowD (G : Graph) (u v : Node) : ℚ :=
  ((G.getEdge? u v).bind EdgeData.flow).getD 0

/-- Rewrite the edge data of `(u, v)` in place; a no-op if the edge is absent
(the source only writes attributes of edges that exist). -/
def modifyEdge (G : Graph) (u v : Node) (f : EdgeData → EdgeData) : Graph :=
  ⟨G.adj.map (fun p =>
    if p.1 == u then
      (p.1, p.2.map (fun q => if q.1 == v then (q.1, f q.2) else q))
    else p)⟩

/-- `G[u][v]['flow'] = x`. -/
def setFlow (G : Graph) (u v : Node) (x : ℚ) : Graph :=
  G.modifyEdge u v (fun e => { e with flow := some x })

/-- `G[u][v]['flow'] += ...` etc.; the previous value is read with default 0,
but the attribute is always present where the source performs these writes. -/
def modifyFlow (G : Graph) (u v : Node) (f : ℚ → ℚ) : Graph :=
  G.modifyEdge u v (fun e => { e with flow := some (f (e.flow.getD 0)) })

/-- `G[u][v].setdefault('flow', x)`. -/
def setFlowDefault (G : Graph) (u v : Node) (x : ℚ) : Graph :=
  G.modifyEdge u v (fun e => { e with flow := some (e.flow.getD x) })

def addNode (G : Graph) (u : Node) : Graph :=
  if G.hasNode u then G else ⟨G.adj ++ [(u, [])]⟩

/-- `G.add_edge(u, v, ...)`: create both endpoints if needed, then set the
edge's attributes (overwriting them if the edge already exists). -/
def addEdge (G : Graph) (u v : Node) (e : EdgeData) : Graph :=
  let G1 := (G.addNode u).addNode v
  if G1.hasEdge u v then G1.modifyEdge u v (fun _ => e)
  else ⟨G1.adj.map (fun p => if p.1 == u then (p.1, p.2 ++ [(v, e)]) else p)⟩

/-- `G.edges()` in networkx iteration order: outer nodes in insertion order,
successors in insertion order. -/
def edges (G : Graph) : List (Node × Node) :=
  G.adj.flatMap (fun p => p.2.map (fun q => (p.1, q.1)))

/-- `G.predecessors(v)`: all nodes with an edge into `v`.  (networkx iterates
these in edge-insertion order; the source only sums over them, so the node
order used here is immaterial.) -/
def predecessors (G : Graph) (v : Node) : List Node :=
  (G.adj.filter (fun p => p.2.any (fun q => q.1 == v))).map Prod.fst

/-- Total length of all adjacency lists (number of edge entries). -/
def totalAdj (G : Graph) : ℕ := (G.adj.map (fun p => p.2.length)).sum

/-- Well-formedness of the dictionary-backed graph, guaranteed by networkx:
node keys are distinct, each successor dictionary has distinct keys, and every
edge target is itself a node. -/
def WF (G : Graph) : Prop :=
  G.nodes.Nodup ∧
  (∀ p ∈ G.adj, (p.2.map Prod.fst).Nodup) ∧
  (∀ p ∈ G.adj, ∀ q ∈ p.2, G.hasNode q.1 = true)

instance (G : Graph) : Decidable (WF G) := by
  unfold WF; infer_instance

end Graph

open Graph

/-! ## `prepare_graph` (network_flow.py lines 8–14) -/

/-- One iteration of the `for u, v in list(G.edges())` loop of
`prepare_graph`. -/
def prepStep (g : Graph) (uv : Node × Node) : Graph :=
  let g1 := g.setFlowDefault uv.1 uv.2 0
  if g1.hasEdge uv.2 uv.1 then g1.setFlowDefault uv.2 uv.1 0
  else g1.addEdge uv.2 uv.1 ⟨0, some 0⟩

/-- `prepare_graph(G)`: iterate over a snapshot of the original edge list,
defaulting `flow` to 0 and creating the missing reverse edges. -/
def prepare_graph (G : Graph) : Graph := G.edges.foldl prepStep G

/-- Rewrite every edge record of the graph in place. -/
def mapFlows (G : Graph) (f : EdgeData → EdgeData) : Graph :=
  ⟨G.adj.map (fun p => (p.1, p.2.map (fun q => (q.1, f q.2))))⟩

/-- Lines 38–39 of `edmonds_karp_steps`: `for u, v in G.edges():
G[u][v]['flow'] = 0`.  The loop assigns every edge entry of the (already
prepared) graph exactly once, i.e. it sets the flow attribute of every edge
to 0; we translate it as that per-entry update. -/
def zeroAllFlows (G : Graph) : Graph :=
  mapFlows G (fun e => { e with flow := some 0 })

/-- Forget all flow attributes, keeping nodes, edges and capacities.
Two graphs with the same `stripFlows` are "identical except for the
pre-existing flow values on their edges". -/
def stripFlows (G : Graph) : Graph :=
  mapFlows G (fun e => { e with flow := none })

/-! ## Edmonds–Karp (network_flow.py lines 19–63) -/

/-- The two flow updates performed for each edge of an augmenting path
(lines 56–57), by Dinic's DFS (lines 95–96) and by push-relabel's `push`
(lines 142–143): `G[u][v]['flow'] += d; G[v][u]['flow'] -= d`. -/
def addFlowPair (g : Graph) (u v : Node) (d : ℚ) : Graph :=
  (g.modifyFlow u v (fun x => x + d)).modifyFlow v u (fun x => x - d)

/-- The body of `for v in G[u]` inside `bfs` (lines 24–32): scan the
successor keys of `u`, marking, recording parents and enqueueing, returning
early with `True` as soon as the sink is discovered. -/
def bfsScan (G : Graph) (t u : Node) :
    List Node → List Node → List (Node × Node) → List Node →
    Bool × List Node × List (Node × Node) × List Node
  | [], visited, parent, q => (false, visited, parent, q)
  | v :: vs, visited, parent, q =>
    if v ∉ visited ∧ 0 < G.capD u v - G.flowD u v then
      let visited' := v :: visited
      let parent' := (v, u) :: parent
      if v == t then (true, visited', parent', q)
      else bfsScan G t u vs visited' parent' (q ++ [v])
    else bfsScan G t u vs visited parent q

/-- The `while q` loop of `bfs` (lines 22–33).  `G[u]` on a node absent from
the graph raises `KeyError` in Python; only the initial queue element (the
source) can be absent. -/
def bfsLoop (G : Graph) (t : Node) :
    ℕ → List Node → List (Node × Node) → List Node →
    Except String (Bool × List (Node × Node))
  | 0, _, _, _ => .error "fuel"
  | _ + 1, _, parent, [] => .ok (false, parent)
  | fuel + 1, visited, parent, u :: rest =>
    if G.hasNode u then
      match bfsScan G t u (G.succList u) visited parent rest with
      | (true, _, parent', _) => .ok (true, parent')
      | (false, visited', parent', q') => bfsLoop G t fuel visited' parent' q'
    else .error "KeyError"

/-- Sufficient fuel for `bfsLoop`: every dequeued element was enqueued, and a
node is enqueued at most once thanks to the `visited` guard. -/
def bfsFuel (G : Graph) : ℕ := G.nodes.length + 2

/-- `bfs(G, s, t, parent)` with `parent = {}` (lines 19–33). -/
def bfs (G : Graph) (s t : Node) : Except String (Bool × List (Node × Node)) :=
  bfsLoop G t (bfsFuel G) [s] [] [s]

/-- The `while v != s` walk of lines 49–53: follow `parent` from `t` back to
`s`, accumulating the path (by front insertion) and the bottleneck
`path_flow` (which starts at `float('inf')`). -/
def walkParent (g : Graph) (parent : List (Node × Node)) (s : Node) :
    ℕ → Node → List (Node × Node) → WithTop ℚ →
    Except String (List (Node × Node) × WithTop ℚ)
  | 0, _, _, _ => .error "fuel"
  | fuel + 1, v, path, pf =>
    if v == s then .ok (path, pf)
    else
      match (parent.find? (fun p => p.1 == v)).map Prod.snd with
      | none => .error "KeyError"
      | some u =>
        walkParent g parent s fuel u ((u, v) :: path)
          (min pf ((g.capD u v - g.flowD u v : ℚ) : WithTop ℚ))

/-- One recorded augmentation step: `(path, path_flow, max_flow)`. -/
abbrev EkStep := List (Node × Node) × WithTop ℚ × WithTop ℚ

/-- Realize a finite `WithTop ℚ` value (the bottleneck of a nonempty
augmenting path is always finite; `⊤` would only arise for an empty path,
which `bfs` can never produce since it returns `True` only for an unvisited
sink). -/
def finOr0 (x : WithTop ℚ) : ℚ := x.untop' 0

/-- The `while bfs(...)` loop of `edmonds_karp_steps` (lines 45–62). -/
def ekLoop (s t : Node) :
    ℕ → Graph → List EkStep → WithTop ℚ →
    Graph × Except String (List EkStep × WithTop ℚ)
  | 0, g, _, _ => (g, .error "fuel")
  | fuel + 1, g, steps, mf =>
    match bfs g s t with
    | .error e => (g, .error e)
    | .ok (false, _) => (g, .ok (steps, mf))
    | .ok (true, parent) =>
      match walkParent g parent s (parent.length + 1) t [] ⊤ with
      | .error e => (g, .error e)
      | .ok (path, pf) =>
        let g' := path.foldl (fun h uv => addFlowPair h uv.1 uv.2 (finOr0 pf)) g
        let mf' := mf + pf
        ekLoop s t fuel g' (steps ++ [(path, pf, mf')]) mf'

/-- `edmonds_karp_steps(G, s, t)` (lines 36–63).  Returns the mutated graph
together with the result; a Python exception (or exhausted fuel for the
unbounded outer loop) is an `Except.error` carrying the graph as already
mutated at that point. -/
def edmonds_karp_steps (fuel : ℕ) (G : Graph) (s t : Node) :
    Graph × Except String (List EkStep × WithTop ℚ) :=
  let g := zeroAllFlows (prepare_graph G)
  ekLoop s t fuel g [] 0

/-! ## Dinic (network_flow.py lines 69–112) -/

/-- Association-list dictionary helpers for the `level`, `it`, `height` and
`excess` dictionaries of the source.  `assocD` reads with a default (Python
raises `KeyError` on a missing key, but all keys read by the algorithms were
inserted at initialization); `assocSet` updates in place or appends. -/
def assocD {β : Type} (l : List (Node × β)) (k : Node) (d : β) : β :=
  ((l.find? (fun p => p.1 == k)).map Prod.snd).getD d

def assocSet {β : Type} (l : List (Node × β)) (k : Node) (x : β) : List (Node × β) :=
  if l.any (fun p => p.1 == k) then
    l.map (fun p => if p.1 == k then (p.1, x) else p)
  else l ++ [(k, x)]

/-- The body of `for v in G[u]` inside `bfs_level` (lines 78–81): a plain
fold, since that loop has no early exit. -/
def levelScan (G : Graph) (u : Node) (st : List (Node × Int) × List Node) :
    List (Node × Int) × List Node :=
  (G.succList u).foldl
    (fun (st : List (Node × Int) × List Node) v =>
      if assocD st.1 v (-1) < 0 ∧ 0 < G.capD u v - G.flowD u v then
        (assocSet st.1 v (assocD st.1 u (-1) + 1), st.2 ++ [v])
      else st)
    st

/-- The `while q` loop of `bfs_level` (lines 76–81). -/
def levelLoop (G : Graph) : ℕ → List (Node × Int) → List Node → List (Node × Int)
  | 0, level, _ => level
  | _ + 1, level, [] => level
  | fuel + 1, level, u :: rest =>
    let st := levelScan G u (level, rest)
    levelLoop G fuel st.1 st.2

/-- `bfs_level()` (lines 72–82): levels start at `-1` for every node, the
source gets level 0 and a breadth-first search assigns `level[u] + 1` to each
newly reached residual successor. -/
def bfs_level (G : Graph) (s : Node) : List (Node × Int) :=
  let level0 := assocSet (G.nodes.map (fun n => (n, (-1 : Int)))) s 0
  levelLoop G (G.nodes.length + 2) level0 [s]

/-- `dfs(u, pushed, t, level, it)` (lines 84–98).  A single fuel argument
bounds both the recursion depth and the `while it[u] < len(G[u])` iterations;
the loop itself still exits exactly when the resume index `it[u]` reaches the
end of `u`'s adjacency, as in the source.  Fuel exhaustion returns 0 (no
augmenting path), which is never reached for the fuel amounts used below. -/
def dinicDfs (t : Node) (level : List (Node × Int)) :
    ℕ → Graph → List (Node × ℕ) → Node → WithTop ℚ →
    Graph × List (Node × ℕ) × WithTop ℚ
  | 0, g, it, _, _ => (g, it, 0)
  | fuel + 1, g, it, u, pushed =>
    if u == t then (g, it, pushed)
    else
      let idx := assocD it u 0
      let vs := g.succList u
      if h : idx < vs.length then
        let v := vs[idx]
        let it1 := assocSet it u (idx + 1)
        if assocD level v (-1) == assocD level u (-1) + 1 ∧
            0 < g.capD u v - g.flowD u v then
          let r := (dinicDfs t level fuel g it1 v
            (min pushed ((g.capD u v - g.flowD u v : ℚ) : WithTop ℚ)))
          if 0 < r.2.2 then
            (addFlowPair r.1 u v (finOr0 r.2.2), r.2.1, r.2.2)
          else dinicDfs t level fuel r.1 r.2.1 u pushed
        else dinicDfs t level fuel g it1 u pushed
      else (g, it, 0)

/-- Fuel for one call of `dfs(s, inf, ...)`: the recursion descends through
strictly increasing levels and each `while` iteration advances a resume
index, so depth and total iterations are bounded by the graph size. -/
def dfsFuel (G : Graph) : ℕ := (G.nodes.length + 2) * (G.totalAdj + 2)

/-- The inner `while True` loop of `dinic_apply` (lines 106–110): repeat the
blocking-flow DFS until it returns a non-positive push. -/
def dinicInner (s t : Node) (level : List (Node × Int)) :
    ℕ → Graph → List (Node × ℕ) → WithTop ℚ →
    Graph × Except String (WithTop ℚ)
  | 0, g, _, _ => (g, .error "fuel")
  | fuel + 1, g, it, mf =>
    let r := dinicDfs t level (dfsFuel g) g it s ⊤
    if r.2.2 ≤ 0 then (r.1, .ok mf)
    else dinicInner s t level fuel r.1 r.2.1 (mf + r.2.2)

/-- The outer `while True` loop of `dinic_apply` (lines 101–110): rebuild the
level graph; stop when the sink is unreachable. -/
def dinicOuter (s t : Node) :
    ℕ → Graph → WithTop ℚ → Graph × Except String (WithTop ℚ)
  | 0, g, _ => (g, .error "fuel")
  | fuel + 1, g, mf =>
    let level := bfs_level g s
    if assocD level t (-1) < 0 then (g, .ok mf)
    else
      let it0 := g.nodes.map (fun n => (n, (0 : ℕ)))
      match dinicInner s t level (fuel + 1) g it0 mf with
      | (g', .error e) => (g', .error e)
      | (g', .ok mf') => dinicOuter s t fuel g' mf'

/-- `dinic_apply(G, s, t)` (lines 69–112). -/
def dinic_apply (fuel : ℕ) (G : Graph) (s t : Node) :
    Graph × Except String (WithTop ℚ) :=
  let g := prepare_graph G
  dinicOuter s t fuel g 0

/-! ## Push–relabel (network_flow.py lines 117–188) -/

/-- Ghost record of one successful `push(u, v)` (lines 138–146): the nodes,
their heights at the moment of the push, and the amount sent.  The trace does
not influence the computation; it only lets us state which pushes occur. -/
structure PushEvent where
  u : Node
  v : Node
  hu : Int
  hv : Int
  send : ℚ
  deriving DecidableEq, Repr

/-- State threaded through the push-relabel main loop. -/
structure PRState where
  g : Graph
  excess : List (Node × ℚ)
  height : List (Node × Int)
  active : List Node
  trace : List PushEvent
  deriving DecidableEq, Repr

/-- `push(u, v)` (lines 138–146): send `min(excess[u], capacity - flow)`
along the edge if positive.  Note the source checks no height condition. -/
def prPush (st : PRState) (u v : Node) : PRState × Bool :=
  let send := min (assocD st.excess u 0) (st.g.capD u v - st.g.flowD u v)
  if send ≤ 0 then (st, false)
  else
    ({ st with
        g := addFlowPair st.g u v send
        excess := assocSet (assocSet st.excess u (assocD st.excess u 0 - send))
          v (assocD st.excess v 0 + send)
        trace := st.trace ++
          [⟨u, v, assocD st.height u 0, assocD st.height v 0, send⟩] },
      true)

/-- `relabel(u)` (lines 148–154): one more than the minimum height among
residual-positive neighbours, if any. -/
def prRelabel (st : PRState) (u : Node) : PRState :=
  let minH := (st.g.succList u).foldl
    (fun (m : Option Int) v =>
      if 0 < st.g.capD u v - st.g.flowD u v then
        match m with
        | none => some (assocD st.height v 0)
        | some h => some (min h (assocD st.height v 0))
      else m)
    none
  match minH with
  | none => st
  | some m => { st with height := assocSet st.height u (m + 1) }

/-- The `for v in G[u]` discharge loop (lines 162–168): push along each
successor, activating newly excessive nodes, breaking once `excess[u] == 0`.
(The `pushed_something` flag of the source is never read afterwards and is
omitted.) -/
def prScan (s t u : Node) : List Node → PRState → PRState
  | [], st => st
  | v :: vs, st =>
    let r := prPush st u v
    if r.2 then
      let st1 := r.1
      let st2 :=
        if v ∉ [s, t] ∧ 0 < assocD st1.excess v 0 ∧ v ∉ st1.active then
          { st1 with active := st1.active ++ [v] }
        else st1
      if assocD st2.excess u 0 == 0 then st2
      else prScan s t u vs st2
    else prScan s t u vs r.1

/-- The `while i < len(active)` worklist loop (lines 156–177), including the
move-to-front-and-restart policy after a relabel that raised the height. -/
def prLoop (s t : Node) : ℕ → ℕ → PRState → Except String PRState
  | 0, _, _ => .error "fuel"
  | fuel + 1, i, st =>
    if h : i < st.active.length then
      let u := st.active[i]
      let oldH := assocD st.height u 0
      let st1 := prScan s t u (st.g.succList u) st
      let st2 := if 0 < assocD st1.excess u 0 then prRelabel st1 u else st1
      if oldH < assocD st2.height u 0 then
        prLoop s t fuel 0
          { st2 with active := st2.active.getD i "" :: st2.active.eraseIdx i }
      else prLoop s t fuel (i + 1) st2
    else .ok st

/-- Lines 129–133: saturate every edge out of the source
(`flow = capacity` on the edge, `-= capacity` on its reverse) and credit the
excess to each direct successor. -/
def prSaturate (s : Node) (vs : List Node) (st : PRState) : PRState :=
  vs.foldl
    (fun st v =>
      let cap := st.g.capD s v
      { st with
          g := (st.g.setFlow s v cap).modifyFlow v s (fun x => x - cap)
          excess := assocSet st.excess v (assocD st.excess v 0 + cap) })
    st

/-- `push_relabel_apply(G, s, t)` (lines 117–188) together with its ghost
push trace and final state. -/
def push_relabel_core (fuel : ℕ) (G : Graph) (s t : Node) :
    Graph × Except String (ℚ × List PushEvent) :=
  let g := prepare_graph G
  let n : Int := g.nodes.length
  let height := assocSet (g.nodes.map (fun u => (u, (0 : Int)))) s n
  let excess := g.nodes.map (fun u => (u, (0 : ℚ)))
  let st0 : PRState := ⟨g, excess, height, [], []⟩
  let st1 := prSaturate s (g.succList s) st0
  let active := g.nodes.filter (fun u => decide (u ∉ [s, t] ∧ 0 < assocD st1.excess u 0))
  match prLoop s t fuel 0 { st1 with active := active } with
  | .error e => (st1.g, .error e)
  | .ok st2 =>
    let val := (st2.g.predecessors t).foldl
      (fun acc u => if 0 < st2.g.flowD u t then acc + st2.g.flowD u t else acc) 0
    (st2.g, .ok (val, st2.trace))

/-- `push_relabel_apply(G, s, t)`: the returned max-flow value (net positive
inflow into `t`, lines 182–188). -/
def push_relabel_apply (fuel : ℕ) (G : Graph) (s t : Node) :
    Graph × Except String ℚ :=
  let r := push_relabel_core fuel G s t
  (r.1, r.2.map Prod.fst)

/-- The ghost trace of successful pushes performed by
`push_relabel_apply`. -/
def push_relabel_trace (fuel : ℕ) (G : Graph) (s t : Node) :
    Except String (List PushEvent) :=
  (push_relabel_core fuel G s t).2.map Prod.snd

/-! ## Min-cut (network_flow.py lines 193–210) -/

/-- The `while stack` reachability loop of `min_cut_report` (lines 195–202):
depth-first search over edges with positive residual capacity.  The Python
`stack.pop()` removes the *last* element; we keep the stack top at the head,
so the pushes of one scan are appended in reverse.  `visited` is kept as an
insertion-ordered duplicate-free list (the source uses a `set`, whose
iteration order is unspecified; only membership matters below). -/
def reachLoop (G : Graph) : ℕ → List Node → List Node → List Node
  | 0, visited, _ => visited
  | _ + 1, visited, [] => visited
  | fuel + 1, visited, u :: rest =>
    if u ∈ visited then reachLoop G fuel visited rest
    else
      reachLoop G fuel (visited ++ [u])
        (((G.succList u).filter (fun v => decide (0 < G.capD u v - G.flowD u v))).reverse
          ++ rest)

/-- Sufficient fuel for `reachLoop`: each iteration either pops a visited
node or visits a new one, and pushes are bounded by the adjacency size. -/
def reachFuel (G : Graph) : ℕ := 1 + G.nodes.length + G.totalAdj

/-- `min_cut_report(G, s)` (lines 193–210): the residually reachable set,
then every positive-capacity edge leaving it. -/
def min_cut_report (G : Graph) (s : Node) : List (Node × Node × ℚ) :=
  let visited := reachLoop G (reachFuel G) [] [s]
  visited.flatMap (fun u =>
    ((G.succList u).filter
        (fun v => decide (v ∉ visited) && decide (0 < G.capD u v))).map
      (fun v => (u, v, G.capD u v)))

/-! ## Flow-path extraction (network_flow.py lines 213–233) -/

/-- The recursive `dfs(u, path, f)` of `extract_flow_paths` (lines 217–225),
presented as a scan over the remaining successor keys `vs` of `u`: any
successor edge with positive flow is zeroed (`flow -= flow`), then the search
descends (or emits the path when the sink is reached) and continues with the
remaining successors.  A single fuel argument bounds depth and iterations;
the source itself can fail to terminate on positive-flow cycles (spec §9). -/
def extGo (t : Node) :
    ℕ → Graph → Node → List Node → ℚ → List Node →
    List (List Node × ℚ) → Graph × List (List Node × ℚ)
  | 0, g, _, _, _, _, acc => (g, acc)
  | fuel + 1, g, u, path, f, vs, acc =>
    match vs with
    | [] => (g, acc)
    | v :: rest =>
      let fl := g.flowD u v
      if 0 < fl then
        let g1 := g.modifyFlow u v (fun x => x - fl)
        let r :=
          if v == t then (g1, acc ++ [(path ++ [v], min f fl)])
          else extGo t fuel g1 v (path ++ [v]) (min f fl) (g1.succList v) acc
        extGo t fuel r.1 u path f rest r.2
      else extGo t fuel g u path f rest acc

/-- The top-level `for v in list(G[s])` loop (lines 227–231). -/
def extTop (fuel : ℕ) (s t : Node) :
    Graph → List Node → List (List Node × ℚ) → Graph × List (List Node × ℚ)
  | g, [], acc => (g, acc)
  | g, v :: rest, acc =>
    let fl := g.flowD s v
    if 0 < fl then
      let g1 := g.modifyFlow s v (fun x => x - fl)
      let r :=
        if v == t then (g1, acc ++ [([s, v], fl)])
        else extGo t fuel g1 v [s, v] fl (g1.succList v) acc
      extTop fuel s t r.1 rest r.2
    else extTop fuel s t g rest acc

/-- `extract_flow_paths(G, s, t)` (lines 213–233). -/
def extract_flow_paths (fuel : ℕ) (G : Graph) (s t : Node) :
    Graph × List (List Node × ℚ) :=
  let g := prepare_graph G
  extTop fuel s t g (g.succList s) []

/-! ## Concrete networks used in the analysis -/

/-- The spec §8 line network: `S→A` capacity 5, `A→T` capacity 3. -/
def lineG : Graph :=
  ((⟨[]⟩ : Graph).addEdge "S" "A" ⟨5, none⟩).addEdge "A" "T" ⟨3, none⟩

/-- A four-node network (`S→A` cap 1, `S→B` cap 1, `A→T` cap 2, `B→A`
cap 1) whose max flow is 2 (routes `S→A→T` and `S→B→A→T`). -/
def g4 : Graph :=
  ((((⟨[]⟩ : Graph).addEdge "S" "A" ⟨1, none⟩).addEdge "S" "B" ⟨1, none⟩).addEdge
    "A" "T" ⟨2, none⟩).addEdge "B" "A" ⟨1, none⟩

/-- A diamond network (`S→A`, `S→B`, `A→C`, `B→C` cap 1 each, `C→T` cap 2)
whose max flow is 2, carried by the two paths through `C`. -/
def diamondG : Graph :=
  (((((⟨[]⟩ : Graph).addEdge "S" "A" ⟨1, none⟩).addEdge "S" "B" ⟨1, none⟩).addEdge
    "A" "C" ⟨1, none⟩).addEdge "B" "C" ⟨1, none⟩).addEdge "C" "T" ⟨2, none⟩

/-! ## Claim C1 -/

/-- **C1.**  The claim states that `edmonds_karp_steps`, `dinic_apply` and
`push_relabel_apply` return the identical max-flow value on every graph.
On `g4` Edmonds–Karp and Dinic both return 2, but `push_relabel_apply`
returns 1 (its `push` never checks the height condition, and a node that
regains excess after its worklist position has been passed is never
reprocessed, stranding one unit of excess at `A`), a difference far beyond
any floating-point tolerance. -/
theorem C1_solver_disagreement :
    (edmonds_karp_steps 10 g4 "S" "T").2 =
      .ok ([([("S", "A"), ("A", "T")], ((1 : ℚ) : WithTop ℚ), ((1 : ℚ) : WithTop ℚ)),
            ([("S", "B"), ("B", "A"), ("A", "T")], ((1 : ℚ) : WithTop ℚ),
              ((2 : ℚ) : WithTop ℚ))], ((2 : ℚ) : WithTop ℚ)) ∧
    (dinic_apply 10 g4 "S" "T").2 = .ok ((2 : ℚ) : WithTop ℚ) ∧
    (push_relabel_apply 50 g4 "S" "T").2 = .ok (1 : ℚ) ∧
    (1 / 1000000 : ℚ) < 2 - 1 := by
  refine ⟨by with_unfolding_all rfl, by with_unfolding_all rfl,
    by with_unfolding_all rfl, by norm_num⟩

/-! ## Claim C2 -/

/-- **C2.**  The claim states that the amounts returned by
`extract_flow_paths` always sum to the max-flow value and that each followed
edge is decremented exactly by the amount attributed to the path using it.
On `diamondG` the solver produces a flow of value 2, but the extractor zeroes
each followed edge entirely (`flow -= flow`, line 224 of the source, rather
than subtracting the attributed amount): the first path through `C` wipes all
2 units off `C→T`, so the second unit of flow reaching `C` through `B` finds
no positive-flow continuation and is silently lost.  The returned
decomposition is a single path of amount 1 ≠ 2. -/
theorem C2_decomposition_unsound :
    (edmonds_karp_steps 10 diamondG "S" "T").2 =
      .ok ([([("S", "A"), ("A", "C"), ("C", "T")], ((1 : ℚ) : WithTop ℚ),
              ((1 : ℚ) : WithTop ℚ)),
            ([("S", "B"), ("B", "C"), ("C", "T")], ((1 : ℚ) : WithTop ℚ),
              ((2 : ℚ) : WithTop ℚ))], ((2 : ℚ) : WithTop ℚ)) ∧
    (extract_flow_paths 30 (edmonds_karp_steps 10 diamondG "S" "T").1 "S" "T").2 =
      [(["S", "A", "C", "T"], (1 : ℚ))] ∧
    (1 : ℚ) ≠ 2 := by
  refine ⟨by with_unfolding_all rfl, by with_unfolding_all rfl, by norm_num⟩

/-! ## Claim C3 -/

/-- **C3.**  The claim states that a push from `u` to `v` happens only when
`height(v) < height(u)`.  The source's `push` (lines 138–146) checks no
height condition at all, and the discharge loop (lines 162–168) attempts a
push along *every* outgoing edge.  Already on the spec's own line network the
recorded pushes are `A→T` with `height(A) = height(T) = 0` (equal heights)
and `A→S` with `height(A) = 0 < 3 = height(S)` (pushing *uphill*); the
claimed strictly-lower-height condition `hv < hu` fails for both.  (The
second half of the claim — the pushed amount being
`min(excess(u), capacity - flow)` — does match `prPush`.) -/
theorem C3_push_ignores_heights :
    push_relabel_trace 50 lineG "S" "T" =
      .ok [⟨"A", "T", 0, 0, (3 : ℚ)⟩, ⟨"A", "S", 0, 3, (2 : ℚ)⟩] ∧
    ¬ ((0 : Int) < 0) ∧ (0 : Int) < 3 := by
  refine ⟨by with_unfolding_all rfl, by decide, by decide⟩

/-! ## Claim C4 -/

/-- When the source node *is* the sink, Dinic's `dfs(s, inf, ...)`
immediately returns `inf` without touching any state, so the inner
`while True` loop of `dinic_apply` never terminates. -/
theorem dinicInner_self_loops (s : Node) (level : List (Node × Int)) :
    ∀ (k : ℕ) (g : Graph) (it : List (Node × ℕ)) (mf : WithTop ℚ),
      dinicInner s s level k g it mf = (g, .error "fuel") := by
  intro k
  induction k with
  | zero => intro g it mf; rfl
  | succ n ih =>
    intro g it mf
    have hdfs : dinicDfs s level (dfsFuel g) g it s ⊤ = (g, it, ⊤) := by
      obtain ⟨m, hm⟩ : ∃ m, dfsFuel g = m + 1 := by
        refine ⟨dfsFuel g - 1, ?_⟩
        have : 0 < dfsFuel g := by unfold dfsFuel; positivity
        omega
      rw [hm]
      simp [dinicDfs]
    simp only [dinicInner, hdfs]
    have : ¬ ((⊤ : WithTop ℚ) ≤ 0) := by simp
    rw [if_neg this]
    exact ih g it (mf + ⊤)

/-- **C4.**  The claim states that all three solvers terminate for every
finite simple graph with non-negative capacities and any source and sink
present in the graph.  With source = sink (both present), `dinic_apply`
diverges: every inner iteration calls `dfs(s, inf, ...)` which returns `inf`
at once (line 85–86) leaving all state unchanged, so `pushed <= 0` never
holds.  In the embedding this shows as fuel exhaustion for *every* fuel
amount. -/
theorem C4_dinic_diverges_on_source_eq_sink :
    ∀ fuel : ℕ, (dinic_apply fuel lineG "S" "S").2 = .error "fuel" := by
  intro fuel
  cases fuel with
  | zero => rfl
  | succ n =>
    show (dinicOuter "S" "S" (n + 1) (prepare_graph lineG) 0).2 = .error "fuel"
    simp only [dinicOuter]
    have h0 : assocD (bfs_level (prepare_graph lineG) "S") "S" (-1) = 0 := by
      with_unfolding_all rfl
    rw [if_neg (by rw [h0]; norm_num)]
    rw [dinicInner_self_loops "S" (bfs_level (prepare_graph lineG) "S") (n + 1)]

/-! ## Claim C5 (counterexample) -/

/-- **C5, refuted as stated.**  The claim says a solver invoked with a source
or sink absent from the graph fails with an `UnknownNode` condition *before
any traversal*, leaving the graph unmodified.  The source contains no
validation at all: with an absent sink (`"X"`), `edmonds_karp_steps` does not
fail — it completes normally with zero steps and max-flow 0; with an absent
source (`"Z"`), it fails only with a `KeyError` inside the first BFS (line 24
of the source), *after* `prepare_graph` and the flow-reset loop have already
mutated the graph (added reverse edges and flow attributes). -/
theorem C5_counterexample_no_validation :
    (edmonds_karp_steps 10 lineG "S" "X").2 = .ok ([], ((0 : ℚ) : WithTop ℚ)) ∧
    (edmonds_karp_steps 10 lineG "Z" "T").2 = .error "KeyError" ∧
    (edmonds_karp_steps 10 lineG "Z" "T").1 ≠ lineG := by
  refine ⟨by with_unfolding_all rfl, by with_unfolding_all rfl, ?_⟩
  intro h
  have : (edmonds_karp_steps 10 lineG "Z" "T").1.totalAdj = lineG.totalAdj := by
    rw [h]
  revert this
  with_unfolding_all decide

/-! ## Claim C6 -/

/-- **C6.**  On the line network (`S→A` cap 5, `A→T` cap 3) all three solvers
return max-flow 3; passing the solved graph to the decomposer yields exactly
the single path `S→A→T` with amount 3, and to the min-cut extractor yields
exactly the single cut edge `(A, T, 3)`. -/
theorem C6_line_network_scenario :
    (edmonds_karp_steps 10 lineG "S" "T").2 =
      .ok ([([("S", "A"), ("A", "T")], ((3 : ℚ) : WithTop ℚ),
        ((3 : ℚ) : WithTop ℚ))], ((3 : ℚ) : WithTop ℚ)) ∧
    (dinic_apply 10 lineG "S" "T").2 = .ok ((3 : ℚ) : WithTop ℚ) ∧
    (push_relabel_apply 50 lineG "S" "T").2 = .ok (3 : ℚ) ∧
    (extract_flow_paths 30 (edmonds_karp_steps 10 lineG "S" "T").1 "S" "T").2 =
      [(["S", "A", "T"], (3 : ℚ))] ∧
    min_cut_report (edmonds_karp_steps 10 lineG "S" "T").1 "S" = [("A", "T", (3 : ℚ))] := by
  refine ⟨by with_unfolding_all rfl, by with_unfolding_all rfl,
    by with_unfolding_all rfl, by with_unfolding_all rfl, by with_unfolding_all rfl⟩

/-! ## Basic lemmas about the graph model -/

/-- The per-successor rewrite performed by `modifyEdge`. -/
def innerF (v : Node) (f : EdgeData → EdgeData) (q : Node × EdgeData) : Node × EdgeData :=
  if q.1 == v then (q.1, f q.2) else q

/-- The per-node rewrite performed by `modifyEdge`. -/
def outerF (u v : Node) (f : EdgeData → EdgeData)
    (p : Node × List (Node × EdgeData)) : Node × List (Node × EdgeData) :=
  if p.1 == u then (p.1, p.2.map (innerF v f)) else p

theorem innerF_fst (v : Node) (f : EdgeData → EdgeData) (q : Node × EdgeData) :
    (innerF v f q).1 = q.1 := by
  unfold innerF; split <;> rfl

theorem outerF_fst (u v : Node) (f : EdgeData → EdgeData)
    (p : Node × List (Node × EdgeData)) : (outerF u v f p).1 = p.1 := by
  unfold outerF; split <;> rfl

theorem modifyEdge_eq_map (g : Graph) (u v : Node) (f : EdgeData → EdgeData) :
    g.modifyEdge u v f = ⟨g.adj.map (outerF u v f)⟩ := rfl

theorem find?_key_map {β γ : Type} (l : List (Node × β)) (F : Node × β → Node × γ)
    (hF : ∀ p, (F p).1 = p.1) (a : Node) :
    (l.map F).find? (fun p => p.1 == a) = (l.find? (fun p => p.1 == a)).map F := by
  have hpred : ((fun p : Node × γ => p.1 == a) ∘ F) = (fun p : Node × β => p.1 == a) := by
    funext p
    simp [Function.comp, hF]
  rw [List.find?_map, hpred]

theorem succPairs_modifyEdge (g : Graph) (u v : Node) (f : EdgeData → EdgeData) (a : Node) :
    (g.modifyEdge u v f).succPairs a =
      if a = u then (g.succPairs a).map (innerF v f) else g.succPairs a := by
  rw [modifyEdge_eq_map]
  unfold Graph.succPairs
  simp only []
  rw [find?_key_map _ _ (outerF_fst u v f)]
  cases hfind : g.adj.find? (fun p => p.1 == a) with
  | none => split <;> simp
  | some p =>
    have hp : p.1 = a := by
      have := List.find?_some hfind
      simpa using this
    show (outerF u v f p).2 = if a = u then p.2.map (innerF v f) else p.2
    unfold outerF
    by_cases hau : a = u
    · rw [if_pos hau, if_pos (by simp [hp, hau])]
    · rw [if_neg hau, if_neg (by simp [hp, hau])]

theorem getEdge?_modifyEdge (g : Graph) (u v : Node) (f : EdgeData → EdgeData) (a b : Node) :
    (g.modifyEdge u v f).getEdge? a b =
      if a = u ∧ b = v then (g.getEdge? a b).map f else g.getEdge? a b := by
  unfold Graph.getEdge?
  rw [succPairs_modifyEdge]
  by_cases hau : a = u
  · subst hau
    rw [if_pos rfl]
    rw [find?_key_map _ _ (innerF_fst v f)]
    cases hfind : (g.succPairs a).find? (fun p => p.1 == b) with
    | none => simp
    | some q =>
      have hq : q.1 = b := by
        have := List.find?_some hfind
        simpa using this
      by_cases hbv : b = v
      · subst hbv
        simp [innerF, hq]
      · simp [innerF, hq, hbv]
  · rw [if_neg hau, if_neg (by intro h; exact hau h.1)]

theorem nodes_modifyEdge (g : Graph) (u v : Node) (f : EdgeData → EdgeData) :
    (g.modifyEdge u v f).nodes = g.nodes := by
  rw [modifyEdge_eq_map]
  unfold Graph.nodes
  simp only [List.map_map]
  exact List.map_congr_left (fun p _ => outerF_fst u v f p)

theorem hasNode_modifyEdge (g : Graph) (u v w : Node) (f : EdgeData → EdgeData) :
    (g.modifyEdge u v f).hasNode w = g.hasNode w := by
  rw [modifyEdge_eq_map]
  unfold Graph.hasNode
  rw [find?_key_map _ _ (outerF_fst u v f)]
  cases g.adj.find? (fun p => p.1 == w) <;> rfl

theorem succList_modifyEdge (g : Graph) (u v w : Node) (f : EdgeData → EdgeData) :
    (g.modifyEdge u v f).succList w = g.succList w := by
  unfold Graph.succList
  rw [succPairs_modifyEdge]
  split
  · rw [List.map_map]
    exact List.map_congr_left (fun q _ => innerF_fst v f q)
  · rfl

theorem hasEdge_modifyEdge (g : Graph) (u v a b : Node) (f : EdgeData → EdgeData) :
    (g.modifyEdge u v f).hasEdge a b = g.hasEdge a b := by
  unfold Graph.hasEdge
  rw [getEdge?_modifyEdge]
  split
  · cases g.getEdge? a b <;> rfl
  · rfl

theorem capD_modifyEdge (g : Graph) (u v a b : Node) (f : EdgeData → EdgeData)
    (hf : ∀ e, (f e).capacity = e.capacity) :
    (g.modifyEdge u v f).capD a b = g.capD a b := by
  unfold Graph.capD
  rw [getEdge?_modifyEdge]
  split
  · cases g.getEdge? a b <;> simp [hf]
  · rfl

theorem edges_modifyEdge (g : Graph) (u v : Node) (f : EdgeData → EdgeData) :
    (g.modifyEdge u v f).edges = g.edges := by
  rw [modifyEdge_eq_map]
  unfold Graph.edges
  rw [List.flatMap_map]
  refine List.flatMap_congr (fun p _ => ?_)
  unfold outerF
  split
  · next h =>
    rw [List.map_map]
    refine List.map_congr_left (fun q _ => ?_)
    simp [innerF_fst]
  · rfl

/-! ### Flow writes: corollaries for `modifyFlow`, `setFlow`, `setFlowDefault` -/

theorem flowD_modifyFlow (g : Graph) (u v a b : Node) (h : ℚ → ℚ) :
    (g.modifyFlow u v h).flowD a b =
      if a = u ∧ b = v ∧ g.hasEdge u v = true then h (g.flowD u v) else g.flowD a b := by
  unfold Graph.modifyFlow Graph.flowD Graph.hasEdge
  rw [getEdge?_modifyEdge]
  by_cases hab : a = u ∧ b = v
  · obtain ⟨ha, hb⟩ := hab
    subst ha; subst hb
    rw [if_pos ⟨rfl, rfl⟩]
    cases g.getEdge? a b with
    | none => simp
    | some e => simp
  · rw [if_neg hab, if_neg (by intro hh; exact hab ⟨hh.1, hh.2.1⟩)]

theorem flowD_setFlow (g : Graph) (u v a b : Node) (x : ℚ) :
    (g.setFlow u v x).flowD a b =
      if a = u ∧ b = v ∧ g.hasEdge u v = true then x else g.flowD a b := by
  unfold Graph.setFlow Graph.flowD Graph.hasEdge
  rw [getEdge?_modifyEdge]
  by_cases hab : a = u ∧ b = v
  · obtain ⟨ha, hb⟩ := hab
    subst ha; subst hb
    rw [if_pos ⟨rfl, rfl⟩]
    cases g.getEdge? a b with
    | none => simp
    | some e => simp
  · rw [if_neg hab, if_neg (by intro hh; exact hab ⟨hh.1, hh.2.1⟩)]

theorem hasEdge_modifyFlow (g : Graph) (u v a b : Node) (h : ℚ → ℚ) :
    (g.modifyFlow u v h).hasEdge a b = g.hasEdge a b := hasEdge_modifyEdge ..

theorem hasEdge_setFlow (g : Graph) (u v a b : Node) (x : ℚ) :
    (g.setFlow u v x).hasEdge a b = g.hasEdge a b := hasEdge_modifyEdge ..

theorem edges_modifyFlow (g : Graph) (u v : Node) (h : ℚ → ℚ) :
    (g.modifyFlow u v h).edges = g.edges := edges_modifyEdge ..

theorem edges_setFlow (g : Graph) (u v : Node) (x : ℚ) :
    (g.setFlow u v x).edges = g.edges := edges_modifyEdge ..

theorem capD_modifyFlow (g : Graph) (u v a b : Node) (h : ℚ → ℚ) :
    (g.modifyFlow u v h).capD a b = g.capD a b := capD_modifyEdge _ _ _ _ _ _ (fun _ => rfl)

theorem capD_setFlow (g : Graph) (u v a b : Node) (x : ℚ) :
    (g.setFlow u v x).capD a b = g.capD a b := capD_modifyEdge _ _ _ _ _ _ (fun _ => rfl)

theorem succList_modifyFlow (g : Graph) (u v w : Node) (h : ℚ → ℚ) :
    (g.modifyFlow u v h).succList w = g.succList w := succList_modifyEdge ..

theorem succList_setFlow (g : Graph) (u v w : Node) (x : ℚ) :
    (g.setFlow u v x).succList w = g.succList w := succList_modifyEdge ..

theorem nodes_modifyFlow (g : Graph) (u v : Node) (h : ℚ → ℚ) :
    (g.modifyFlow u v h).nodes = g.nodes := nodes_modifyEdge ..

/-! ### Skew symmetry and the pair update -/

/-- Skew symmetry over the edge list: for every recorded edge pair
`flow(u,v) = -flow(v,u)` (spec §3).  Quantifying over the edge list keeps the
property decidable for concrete graphs. -/
def SkewSymm (g : Graph) : Prop :=
  ∀ p ∈ g.edges, g.flowD p.1 p.2 = - g.flowD p.2 p.1

instance (g : Graph) : Decidable (SkewSymm g) := by
  unfold SkewSymm; infer_instance

/-- The edge relation of `g` is symmetric — established by `prepare_graph`
and untouched by flow writes. -/
def EdgeSym (g : Graph) : Prop := ∀ a b : Node, g.hasEdge a b = g.hasEdge b a

theorem edgeSym_modifyEdge (g : Graph) (u v : Node) (f : EdgeData → EdgeData)
    (h : EdgeSym g) : EdgeSym (g.modifyEdge u v f) := by
  intro a b
  rw [hasEdge_modifyEdge, hasEdge_modifyEdge]
  exact h a b

/-- A push updates the two paired flow values by `+d` and `-d`; all other
flow values, and everything structural, are untouched. -/
theorem flowD_addFlowPair (g : Graph) (u v a b : Node) (d : ℚ) (hne : u ≠ v) :
    (addFlowPair g u v d).flowD a b =
      if a = u ∧ b = v ∧ g.hasEdge u v = true then g.flowD u v + d
      else if a = v ∧ b = u ∧ g.hasEdge v u = true then g.flowD v u - d
      else g.flowD a b := by
  unfold addFlowPair
  rw [flowD_modifyFlow, hasEdge_modifyFlow]
  by_cases h2 : a = v ∧ b = u ∧ g.hasEdge v u = true
  · obtain ⟨ha, hb, he⟩ := h2
    subst ha; subst hb
    rw [if_pos ⟨rfl, rfl, he⟩]
    rw [flowD_modifyFlow]
    rw [if_neg (fun hh => hne hh.2.1)]
    rw [if_neg (fun hh => hne hh.2.1)]
    rw [if_pos ⟨rfl, rfl, he⟩]
  · rw [if_neg h2, flowD_modifyFlow]
    by_cases h1 : a = u ∧ b = v ∧ g.hasEdge u v = true
    · rw [if_pos h1, if_pos h1]
    · rw [if_neg h1, if_neg h1, if_neg h2]

theorem hasEdge_addFlowPair (g : Graph) (u v a b : Node) (d : ℚ) :
    (addFlowPair g u v d).hasEdge a b = g.hasEdge a b := by
  unfold addFlowPair
  rw [hasEdge_modifyFlow, hasEdge_modifyFlow]

theorem edges_addFlowPair (g : Graph) (u v : Node) (d : ℚ) :
    (addFlowPair g u v d).edges = g.edges := by
  unfold addFlowPair
  rw [edges_modifyFlow, edges_modifyFlow]

theorem capD_addFlowPair (g : Graph) (u v a b : Node) (d : ℚ) :
    (addFlowPair g u v d).capD a b = g.capD a b := by
  unfold addFlowPair
  rw [capD_modifyFlow, capD_modifyFlow]

theorem succList_addFlowPair (g : Graph) (u v w : Node) (d : ℚ) :
    (addFlowPair g u v d).succList w = g.succList w := by
  unfold addFlowPair
  rw [succList_modifyFlow, succList_modifyFlow]

theorem nodes_addFlowPair (g : Graph) (u v : Node) (d : ℚ) :
    (addFlowPair g u v d).nodes = g.nodes := by
  unfold addFlowPair
  rw [nodes_modifyFlow, nodes_modifyFlow]

/-- If an edge exists (as seen through `getEdge?`), then it appears in the
edge list.  (No well-formedness needed: `getEdge?` looks at the first
adjacency entry of `a`, which contributes to `edges`.) -/
theorem mem_edges_of_hasEdge {g : Graph} {a b : Node} (h : g.hasEdge a b = true) :
    (a, b) ∈ g.edges := by
  unfold Graph.hasEdge Graph.getEdge? Graph.succPairs at h
  unfold Graph.edges
  rw [List.mem_flatMap]
  cases hfind : g.adj.find? (fun p => p.1 == a) with
  | none => rw [hfind] at h; simp at h
  | some p =>
    rw [hfind] at h
    have hp : p.1 = a := by
      have := List.find?_some hfind
      simpa using this
    replace h : (Option.map Prod.snd (p.2.find? (fun q => q.1 == b))).isSome = true := h
    cases hq : p.2.find? (fun q => q.1 == b) with
    | none => rw [hq] at h; simp at h
    | some q =>
      have hqmem : q ∈ p.2 := List.mem_of_find?_eq_some hq
      have hqb : q.1 = b := by
        have := List.find?_some hq
        simpa using this
      exact ⟨p, List.mem_of_find?_eq_some hfind, by
        rw [List.mem_map]
        exact ⟨q, hqmem, by rw [hp, hqb]⟩⟩

/-- Skew symmetry is preserved by the paired flow update, on any graph whose
edge relation is symmetric.  (A self-loop is updated by `+d` then `-d` and
ends unchanged.) -/
theorem skewSymm_addFlowPair {g : Graph} (u v : Node) (d : ℚ)
    (hsym : EdgeSym g) (hskew : SkewSymm g) : SkewSymm (addFlowPair g u v d) := by
  by_cases hne : u = v
  · subst hne
    intro p hp
    rw [edges_addFlowPair] at hp
    have hall : ∀ a b, (addFlowPair g u u d).flowD a b = g.flowD a b := by
      intro a b
      unfold addFlowPair
      rw [flowD_modifyFlow, hasEdge_modifyFlow]
      by_cases hab : a = u ∧ b = u ∧ g.hasEdge u u = true
      · obtain ⟨ha, hb, he⟩ := hab
        subst ha; subst hb
        rw [if_pos ⟨rfl, rfl, he⟩]
        rw [flowD_modifyFlow]
        rw [if_pos ⟨rfl, rfl, he⟩]
        ring
      · rw [if_neg hab, flowD_modifyFlow, if_neg hab]
    rw [hall, hall]
    exact hskew p hp
  · intro p hp
    rw [edges_addFlowPair] at hp
    rw [flowD_addFlowPair _ _ _ _ _ _ hne, flowD_addFlowPair _ _ _ _ _ _ hne]
    have hskew_p := hskew p hp
    by_cases h1 : p.1 = u ∧ p.2 = v ∧ g.hasEdge u v = true
    · obtain ⟨ha, hb, he⟩ := h1
      rw [if_pos ⟨ha, hb, he⟩]
      rw [if_neg (by intro hh; exact hne (hb ▸ hh.1.symm ▸ rfl))]
      have hrev : g.hasEdge v u = true := (hsym u v) ▸ he
      rw [if_pos ⟨hb, ha, hrev⟩]
      have : g.flowD p.1 p.2 = g.flowD u v := by rw [ha, hb]
      have h2 : g.flowD p.2 p.1 = g.flowD v u := by rw [ha, hb]
      rw [this, h2] at hskew_p
      rw [hskew_p]
      ring
    · rw [if_neg h1]
      by_cases h2 : p.1 = v ∧ p.2 = u ∧ g.hasEdge v u = true
      · obtain ⟨ha, hb, he⟩ := h2
        rw [if_pos ⟨ha, hb, he⟩]
        have hrev : g.hasEdge u v = true := (hsym u v).symm ▸ he
        rw [if_pos ⟨hb, ha, hrev⟩]
        have e1 : g.flowD p.1 p.2 = g.flowD v u := by rw [ha, hb]
        have e2 : g.flowD p.2 p.1 = g.flowD u v := by rw [ha, hb]
        rw [e1, e2] at hskew_p
        rw [hskew_p]
        ring
      · rw [if_neg h2]
        by_cases h3 : p.2 = u ∧ p.1 = v ∧ g.hasEdge u v = true
        · obtain ⟨ha, hb, he⟩ := h3
          exact absurd ⟨hb, ha, (hsym u v) ▸ he⟩ h2
        · rw [if_neg h3]
          by_cases h4 : p.2 = v ∧ p.1 = u ∧ g.hasEdge v u = true
          · obtain ⟨ha, hb, he⟩ := h4
            exact absurd ⟨hb, ha, (hsym u v).symm ▸ he⟩ h1
          · rw [if_neg h4]
            exact hskew_p

/-! ### `addNode` / `addEdge` lemmas and well-formedness transport -/

/-- The flow attribute of `(a, b)` exists. -/
def flowSet (g : Graph) (a b : Node) : Bool :=
  ((g.getEdge? a b).bind EdgeData.flow).isSome

theorem hasNode_mapKeys (g : Graph) (F : Node × List (Node × EdgeData) → Node × List (Node × EdgeData))
    (hF : ∀ p, (F p).1 = p.1) (w : Node) :
    (Graph.mk (g.adj.map F)).hasNode w = g.hasNode w := by
  unfold Graph.hasNode
  rw [find?_key_map _ _ hF]
  cases g.adj.find? (fun p => p.1 == w) <;> rfl

theorem addNode_of_hasNode {g : Graph} {u : Node} (h : g.hasNode u = true) :
    g.addNode u = g := by
  unfold Graph.addNode
  rw [if_pos h]

theorem hasNode_of_mem_edges {g : Graph} {a b : Node} (h : (a, b) ∈ g.edges) :
    g.hasNode a = true := by
  unfold Graph.edges at h
  rw [List.mem_flatMap] at h
  obtain ⟨p, hp, hmem⟩ := h
  rw [List.mem_map] at hmem
  obtain ⟨q, _, hq⟩ := hmem
  have hpa : p.1 = a := congrArg Prod.fst hq
  unfold Graph.hasNode
  rw [List.find?_isSome]
  exact ⟨p, hp, by simp [hpa]⟩

theorem hasNode_of_mem_edges_snd {g : Graph} {a b : Node} (hWF : WF g)
    (h : (a, b) ∈ g.edges) : g.hasNode b = true := by
  unfold Graph.edges at h
  rw [List.mem_flatMap] at h
  obtain ⟨p, hp, hmem⟩ := h
  rw [List.mem_map] at hmem
  obtain ⟨q, hq, hqeq⟩ := hmem
  have hqb : q.1 = b := congrArg Prod.snd hqeq
  exact hqb ▸ hWF.2.2 p hp q hq

/-- On a list with distinct keys, `find?` at a member's key returns exactly
that member. -/
theorem find?_eq_of_nodup {β : Type} {l : List (Node × β)}
    (hnd : (l.map Prod.fst).Nodup) {p : Node × β} (hp : p ∈ l) :
    l.find? (fun x => x.1 == p.1) = some p := by
  induction l with
  | nil => cases hp
  | cons q l ih =>
    rw [List.map_cons, List.nodup_cons] at hnd
    rcases List.mem_cons.mp hp with hpq | hpl
    · subst hpq
      rw [List.find?_cons]
      simp
    · have hne : ¬(q.1 == p.1) = true := by
        intro hcontra
        rw [beq_iff_eq] at hcontra
        exact hnd.1 (hcontra ▸ (List.mem_map.mpr ⟨p, hpl, rfl⟩))
      rw [List.find?_cons]
      simp only [hne]
      exact ih hnd.2 hpl

theorem succPairs_eq_of_mem {g : Graph} (hWF : WF g)
    {p : Node × List (Node × EdgeData)} (hp : p ∈ g.adj) :
    g.succPairs p.1 = p.2 := by
  unfold Graph.succPairs
  rw [find?_eq_of_nodup hWF.1 hp]
  rfl

theorem WF_modifyEdge {g : Graph} (u v : Node) (f : EdgeData → EdgeData)
    (hWF : WF g) : WF (g.modifyEdge u v f) := by
  obtain ⟨hnd, hinner, htgt⟩ := hWF
  rw [modifyEdge_eq_map]
  refine ⟨?_, ?_, ?_⟩
  · show ((g.adj.map (outerF u v f)).map Prod.fst).Nodup
    rw [List.map_map]
    have he : g.adj.map (Prod.fst ∘ outerF u v f) = g.adj.map Prod.fst :=
      List.map_congr_left (fun p _ => outerF_fst u v f p)
    rw [he]
    exact hnd
  · intro p hp
    rw [List.mem_map] at hp
    obtain ⟨p0, hp0, heq⟩ := hp
    subst heq
    unfold outerF
    split
    · rw [List.map_map]
      have he : p0.2.map (Prod.fst ∘ innerF v f) = p0.2.map Prod.fst :=
        List.map_congr_left (fun q _ => innerF_fst v f q)
      rw [he]
      exact hinner p0 hp0
    · exact hinner p0 hp0
  · intro p hp q hq
    rw [List.mem_map] at hp
    obtain ⟨p0, hp0, heq⟩ := hp
    subst heq
    rw [hasNode_mapKeys _ _ (outerF_fst u v f)]
    revert hq
    unfold outerF
    split
    · intro hq
      rw [List.mem_map] at hq
      obtain ⟨q0, hq0, hqeq⟩ := hq
      subst hqeq
      rw [innerF_fst]
      exact htgt p0 hp0 q0 hq0
    · intro hq
      exact htgt p0 hp0 q hq

theorem getEdge?_eq_none_iff {g : Graph} {u v : Node} :
    g.hasEdge u v = false ↔ (g.succPairs u).find? (fun q => q.1 == v) = none := by
  unfold Graph.hasEdge Graph.getEdge?
  cases (g.succPairs u).find? (fun q => q.1 == v) <;> simp

/-- `add_edge` on two existing nodes and an absent edge: the new pair is
appended at the end of `u`'s adjacency, nothing else changes. -/
theorem getEdge?_addEdge_new {g : Graph} {u v : Node} (e : EdgeData)
    (hu : g.hasNode u = true) (hv : g.hasNode v = true)
    (hne : g.hasEdge u v = false) (a b : Node) :
    (g.addEdge u v e).getEdge? a b =
      if a = u ∧ b = v then some e else g.getEdge? a b := by
  unfold Graph.addEdge
  rw [addNode_of_hasNode hu, addNode_of_hasNode hv]
  dsimp only
  rw [hne]
  rw [if_neg (by exact Bool.false_ne_true)]
  unfold Graph.getEdge? Graph.succPairs
  rw [find?_key_map _ _ (fun p => by split <;> rfl)]
  cases hfind : g.adj.find? (fun p => p.1 == a) with
  | none =>
    have hau : a ≠ u := by
      intro hcontra
      subst hcontra
      unfold Graph.hasNode at hu
      rw [hfind] at hu
      simp at hu
    rw [if_neg (fun hh => hau hh.1)]
    rfl
  | some p =>
    have hp : p.1 = a := by
      have := List.find?_some hfind
      simpa using this
    show (Option.map Prod.snd
      ((if p.1 == u then (p.1, p.2 ++ [(v, e)]) else p).2.find? (fun q => q.1 == b))) =
      if a = u ∧ b = v then some e else Option.map Prod.snd (p.2.find? (fun q => q.1 == b))
    by_cases hau : a = u
    · rw [if_pos (by simp [hp, hau])]
      show Option.map Prod.snd ((p.2 ++ [(v, e)]).find? (fun q => q.1 == b)) = _
      rw [List.find?_append]
      have hsucc : g.succPairs u = p.2 := by
        unfold Graph.succPairs
        rw [← hau, hfind]
        rfl
      by_cases hbv : b = v
      · subst hbv
        have : p.2.find? (fun q => q.1 == b) = none := by
          have h2 := getEdge?_eq_none_iff.mp hne
          rw [hsucc] at h2
          exact h2
        rw [this]
        simp [hau]
      · have : ([(v, e)].find? (fun q => q.1 == b)) = none := by
          rw [List.find?_eq_none]
          intro x hx
          rw [List.mem_singleton] at hx
          subst hx
          simp only [beq_iff_eq]
          exact fun h => hbv h.symm
        rw [this]
        rw [if_neg (fun hh => hbv hh.2)]
        cases p.2.find? (fun q => q.1 == b) <;> rfl
    · rw [if_neg (by simp [hp, hau])]
      rw [if_neg (fun hh => hau hh.1)]

theorem hasEdge_addEdge_new {g : Graph} {u v : Node} (e : EdgeData)
    (hu : g.hasNode u = true) (hv : g.hasNode v = true)
    (hne : g.hasEdge u v = false) (a b : Node) :
    (g.addEdge u v e).hasEdge a b =
      if a = u ∧ b = v then true else g.hasEdge a b := by
  unfold Graph.hasEdge
  rw [getEdge?_addEdge_new e hu hv hne]
  split <;> rfl

theorem succPairs_addEdge_new {g : Graph} {u v : Node} (e : EdgeData)
    (hu : g.hasNode u = true) (hv : g.hasNode v = true)
    (hne : g.hasEdge u v = false) (a : Node) :
    (g.addEdge u v e).succPairs a =
      if a = u then g.succPairs a ++ [(v, e)] else g.succPairs a := by
  unfold Graph.addEdge
  rw [addNode_of_hasNode hu, addNode_of_hasNode hv]
  dsimp only
  rw [hne]
  rw [if_neg (by exact Bool.false_ne_true)]
  unfold Graph.succPairs
  rw [find?_key_map _ _ (fun p => by split <;> rfl)]
  cases hfind : g.adj.find? (fun p => p.1 == a) with
  | none =>
    have hau : a ≠ u := by
      intro hcontra
      subst hcontra
      unfold Graph.hasNode at hu
      rw [hfind] at hu
      simp at hu
    rw [if_neg hau]
    rfl
  | some p =>
    have hp : p.1 = a := by
      have := List.find?_some hfind
      simpa using this
    show (if p.1 == u then (p.1, p.2 ++ [(v, e)]) else p).2 =
      if a = u then p.2 ++ [(v, e)] else p.2
    by_cases hau : a = u
    · rw [if_pos (by simp [hp, hau]), if_pos hau]
    · rw [if_neg (by simp [hp, hau]), if_neg hau]

theorem nodes_addEdge_new {g : Graph} {u v : Node} (e : EdgeData)
    (hu : g.hasNode u = true) (hv : g.hasNode v = true)
    (hne : g.hasEdge u v = false) :
    (g.addEdge u v e).nodes = g.nodes := by
  unfold Graph.addEdge
  rw [addNode_of_hasNode hu, addNode_of_hasNode hv]
  dsimp only
  rw [hne]
  rw [if_neg (by exact Bool.false_ne_true)]
  unfold Graph.nodes
  rw [List.map_map]
  exact List.map_congr_left (fun p _ => by dsimp only [Function.comp]; split <;> rfl)

theorem hasNode_addEdge_new {g : Graph} {u v : Node} (e : EdgeData)
    (hu : g.hasNode u = true) (hv : g.hasNode v = true)
    (hne : g.hasEdge u v = false) (w : Node) :
    (g.addEdge u v e).hasNode w = g.hasNode w := by
  unfold Graph.addEdge
  rw [addNode_of_hasNode hu, addNode_of_hasNode hv]
  dsimp only
  rw [hne]
  rw [if_neg (by exact Bool.false_ne_true)]
  exact hasNode_mapKeys g _ (fun p => by split <;> rfl) w

theorem succPairs_not_mem_of_hasEdge_false {g : Graph} {u v : Node}
    (hne : g.hasEdge u v = false) : ∀ q ∈ g.succPairs u, q.1 ≠ v := by
  intro q hq hcontra
  have h2 := getEdge?_eq_none_iff.mp hne
  rw [List.find?_eq_none] at h2
  exact h2 q hq (by simp [hcontra])

theorem WF_addEdge_new {g : Graph} {u v : Node} (e : EdgeData) (hWF : WF g)
    (hu : g.hasNode u = true) (hv : g.hasNode v = true)
    (hne : g.hasEdge u v = false) : WF (g.addEdge u v e) := by
  obtain ⟨hnd, hinner, htgt⟩ := hWF
  have hWF' : WF g := ⟨hnd, hinner, htgt⟩
  unfold Graph.addEdge
  rw [addNode_of_hasNode hu, addNode_of_hasNode hv]
  dsimp only
  rw [hne]
  rw [if_neg (by exact Bool.false_ne_true)]
  refine ⟨?_, ?_, ?_⟩
  · show ((g.adj.map _).map Prod.fst).Nodup
    rw [List.map_map]
    have he : g.adj.map (Prod.fst ∘ fun p => if p.1 == u then (p.1, p.2 ++ [(v, e)]) else p)
        = g.adj.map Prod.fst :=
      List.map_congr_left (fun p _ => by dsimp only [Function.comp]; split <;> rfl)
    rw [he]
    exact hnd
  · intro p hp
    rw [List.mem_map] at hp
    obtain ⟨p0, hp0, heq⟩ := hp
    subst heq
    split
    · next hkey =>
      rw [beq_iff_eq] at hkey
      show ((p0.2 ++ [(v, e)]).map Prod.fst).Nodup
      rw [List.map_append]
      rw [List.nodup_append]
      refine ⟨hinner p0 hp0, by simp, ?_⟩
      intro x hx
      simp only [List.map_cons, List.map_nil, List.mem_singleton]
      intro hxv
      subst hxv
      rw [List.mem_map] at hx
      obtain ⟨q, hq, hqx⟩ := hx
      have : g.succPairs u = p0.2 := hkey ▸ succPairs_eq_of_mem hWF' hp0
      exact succPairs_not_mem_of_hasEdge_false hne q (this ▸ hq) hqx
    · exact hinner p0 hp0
  · intro p hp q hq
    rw [List.mem_map] at hp
    obtain ⟨p0, hp0, heq⟩ := hp
    subst heq
    rw [hasNode_mapKeys g _ (fun p => by split <;> rfl)]
    revert hq
    split
    · intro hq
      rcases List.mem_append.mp hq with hq1 | hq2
      · exact htgt p0 hp0 q hq1
      · rw [List.mem_singleton] at hq2
        subst hq2
        exact hv
    · intro hq
      exact htgt p0 hp0 q hq

theorem mem_edges_addEdge_new {g : Graph} {u v : Node} (e : EdgeData)
    (hu : g.hasNode u = true) (hv : g.hasNode v = true)
    (hne : g.hasEdge u v = false) (p : Node × Node) :
    p ∈ (g.addEdge u v e).edges ↔ p ∈ g.edges ∨ p = (u, v) := by
  unfold Graph.addEdge
  rw [addNode_of_hasNode hu, addNode_of_hasNode hv]
  dsimp only
  rw [hne]
  rw [if_neg (by exact Bool.false_ne_true)]
  unfold Graph.edges
  rw [List.flatMap_map]
  constructor
  · intro h
    rw [List.mem_flatMap] at h
    obtain ⟨p0, hp0, hmem⟩ := h
    revert hmem
    split
    · next hkey =>
      rw [beq_iff_eq] at hkey
      intro hmem
      rw [List.map_append] at hmem
      rcases List.mem_append.mp hmem with h1 | h2
      · exact Or.inl (List.mem_flatMap.mpr ⟨p0, hp0, h1⟩)
      · simp only [List.map_cons, List.map_nil, List.mem_singleton] at h2
        exact Or.inr (by rw [h2, hkey])
    · intro hmem
      exact Or.inl (List.mem_flatMap.mpr ⟨p0, hp0, hmem⟩)
  · intro h
    rcases h with h | h
    · rw [List.mem_flatMap] at h
      obtain ⟨p0, hp0, hmem⟩ := h
      refine List.mem_flatMap.mpr ⟨p0, hp0, ?_⟩
      split
      · rw [List.map_append]
        exact List.mem_append_left _ hmem
      · exact hmem
    · subst h
      unfold Graph.hasNode at hu
      cases hfind : g.adj.find? (fun p => p.1 == u) with
      | none => rw [hfind] at hu; simp at hu
      | some p0 =>
        have hp0 : p0.1 = u := by
          have := List.find?_some hfind
          simpa using this
        refine List.mem_flatMap.mpr ⟨p0, List.mem_of_find?_eq_some hfind, ?_⟩
        rw [if_pos (by simp [hp0])]
        rw [List.map_append]
        refine List.mem_append_right _ ?_
        simp [hp0]

/-! ### Invariants established by `prepare_graph` -/

theorem hasEdge_of_mem_edges {g : Graph} (hWF : WF g) {a b : Node}
    (h : (a, b) ∈ g.edges) : g.hasEdge a b = true := by
  unfold Graph.edges at h
  rw [List.mem_flatMap] at h
  obtain ⟨p, hp, hmem⟩ := h
  rw [List.mem_map] at hmem
  obtain ⟨q, hq, hqeq⟩ := hmem
  have hpa : p.1 = a := congrArg Prod.fst hqeq
  have hqb : q.1 = b := congrArg Prod.snd hqeq
  unfold Graph.hasEdge Graph.getEdge?
  have hsucc : g.succPairs a = p.2 := hpa ▸ succPairs_eq_of_mem hWF hp
  rw [hsucc]
  rw [Option.isSome_iff_exists]
  cases hfind : p.2.find? (fun x => x.1 == b) with
  | none =>
    rw [List.find?_eq_none] at hfind
    exact absurd (by simp [hqb]) (hfind q hq)
  | some x => exact ⟨x.2, rfl⟩

theorem flowSet_setFlowDefault_self {g : Graph} {u v : Node} (x : ℚ)
    (h : g.hasEdge u v = true) : flowSet (g.setFlowDefault u v x) u v = true := by
  unfold flowSet Graph.setFlowDefault
  rw [getEdge?_modifyEdge, if_pos ⟨rfl, rfl⟩]
  unfold Graph.hasEdge at h
  cases hE : g.getEdge? u v with
  | none => rw [hE] at h; simp at h
  | some e => rfl

theorem flowSet_setFlowDefault_mono {g : Graph} {u v a b : Node} (x : ℚ)
    (h : flowSet g a b = true) : flowSet (g.setFlowDefault u v x) a b = true := by
  unfold flowSet Graph.setFlowDefault
  rw [getEdge?_modifyEdge]
  split
  · unfold flowSet at h
    cases hE : g.getEdge? a b with
    | none => rw [hE] at h; simp at h
    | some e => rfl
  · exact h

theorem hasEdge_setFlowDefault {g : Graph} (u v a b : Node) (x : ℚ) :
    (g.setFlowDefault u v x).hasEdge a b = g.hasEdge a b := hasEdge_modifyEdge ..

theorem nodes_setFlowDefault {g : Graph} (u v : Node) (x : ℚ) :
    (g.setFlowDefault u v x).nodes = g.nodes := nodes_modifyEdge ..

theorem hasNode_setFlowDefault {g : Graph} (u v w : Node) (x : ℚ) :
    (g.setFlowDefault u v x).hasNode w = g.hasNode w := hasNode_modifyEdge ..

theorem flowSet_addEdge_new_mono {g : Graph} {u v a b : Node}
    (hu : g.hasNode u = true) (hv : g.hasNode v = true)
    (hne : g.hasEdge u v = false)
    (h : flowSet g a b = true) : flowSet (g.addEdge u v ⟨0, some 0⟩) a b = true := by
  unfold flowSet
  rw [getEdge?_addEdge_new _ hu hv hne]
  split
  · rfl
  · exact h

/-- An edge is correctly prepared: its reverse exists and its own flow
attribute is initialized. -/
def Good (g : Graph) (p : Node × Node) : Prop :=
  g.hasEdge p.2 p.1 = true ∧ flowSet g p.1 p.2 = true

theorem prepStep_WF {g : Graph} {e : Node × Node} (hWF : WF g)
    (he : e ∈ g.edges) : WF (prepStep g e) := by
  unfold prepStep
  have hWF1 : WF (g.setFlowDefault e.1 e.2 0) := WF_modifyEdge _ _ _ hWF
  dsimp only
  split
  · exact WF_modifyEdge _ _ _ hWF1
  · next hcond =>
    refine WF_addEdge_new _ hWF1 ?_ ?_ ?_
    · rw [hasNode_setFlowDefault]
      exact hasNode_of_mem_edges_snd hWF (by rw [show ((e.1, e.2) : Node × Node) = e from rfl]; exact he)
    · rw [hasNode_setFlowDefault]
      exact hasNode_of_mem_edges (a := e.1) (b := e.2) (by rw [show ((e.1, e.2) : Node × Node) = e from rfl]; exact he)
    · exact Bool.not_eq_true _ ▸ (by
        revert hcond
        cases (g.setFlowDefault e.1 e.2 0).hasEdge e.2 e.1 <;> simp)

theorem prepStep_nodes {g : Graph} {e : Node × Node} (hWF : WF g)
    (he : e ∈ g.edges) : (prepStep g e).nodes = g.nodes := by
  unfold prepStep
  dsimp only
  split
  · rw [nodes_setFlowDefault, nodes_setFlowDefault]
  · next hcond =>
    rw [nodes_addEdge_new, nodes_setFlowDefault]
    · rw [hasNode_setFlowDefault]
      exact hasNode_of_mem_edges_snd hWF (by rw [show ((e.1, e.2) : Node × Node) = e from rfl]; exact he)
    · rw [hasNode_setFlowDefault]
      exact hasNode_of_mem_edges (a := e.1) (b := e.2) (by rw [show ((e.1, e.2) : Node × Node) = e from rfl]; exact he)
    · revert hcond
      cases (g.setFlowDefault e.1 e.2 0).hasEdge e.2 e.1 <;> simp

theorem prepStep_hasNode {g : Graph} {e : Node × Node} (hWF : WF g)
    (he : e ∈ g.edges) (w : Node) : (prepStep g e).hasNode w = g.hasNode w := by
  unfold prepStep
  dsimp only
  split
  · rw [hasNode_setFlowDefault, hasNode_setFlowDefault]
  · next hcond =>
    rw [hasNode_addEdge_new, hasNode_setFlowDefault]
    · rw [hasNode_setFlowDefault]
      exact hasNode_of_mem_edges_snd hWF (by rw [show ((e.1, e.2) : Node × Node) = e from rfl]; exact he)
    · rw [hasNode_setFlowDefault]
      exact hasNode_of_mem_edges (a := e.1) (b := e.2) (by rw [show ((e.1, e.2) : Node × Node) = e from rfl]; exact he)
    · revert hcond
      cases (g.setFlowDefault e.1 e.2 0).hasEdge e.2 e.1 <;> simp

theorem prepStep_hasEdge_mono {g : Graph} {e : Node × Node} (hWF : WF g)
    (he : e ∈ g.edges) {a b : Node} (h : g.hasEdge a b = true) :
    (prepStep g e).hasEdge a b = true := by
  unfold prepStep
  dsimp only
  split
  · rw [hasEdge_setFlowDefault, hasEdge_setFlowDefault]
    exact h
  · next hcond =>
    rw [hasEdge_addEdge_new]
    · split
      · rfl
      · rw [hasEdge_setFlowDefault]; exact h
    · rw [hasNode_setFlowDefault]
      exact hasNode_of_mem_edges_snd hWF (by rw [show ((e.1, e.2) : Node × Node) = e from rfl]; exact he)
    · rw [hasNode_setFlowDefault]
      exact hasNode_of_mem_edges (a := e.1) (b := e.2) (by rw [show ((e.1, e.2) : Node × Node) = e from rfl]; exact he)
    · revert hcond
      cases (g.setFlowDefault e.1 e.2 0).hasEdge e.2 e.1 <;> simp

theorem prepStep_flowSet_mono {g : Graph} {e : Node × Node} (hWF : WF g)
    (he : e ∈ g.edges) {a b : Node} (h : flowSet g a b = true) :
    flowSet (prepStep g e) a b = true := by
  unfold prepStep
  dsimp only
  split
  · exact flowSet_setFlowDefault_mono _ (flowSet_setFlowDefault_mono _ h)
  · next hcond =>
    refine flowSet_addEdge_new_mono ?_ ?_ ?_ (flowSet_setFlowDefault_mono _ h)
    · rw [hasNode_setFlowDefault]
      exact hasNode_of_mem_edges_snd hWF (by rw [show ((e.1, e.2) : Node × Node) = e from rfl]; exact he)
    · rw [hasNode_setFlowDefault]
      exact hasNode_of_mem_edges (a := e.1) (b := e.2) (by rw [show ((e.1, e.2) : Node × Node) = e from rfl]; exact he)
    · revert hcond
      cases (g.setFlowDefault e.1 e.2 0).hasEdge e.2 e.1 <;> simp

theorem edges_setFlowDefault {g : Graph} (u v : Node) (x : ℚ) :
    (g.setFlowDefault u v x).edges = g.edges := edges_modifyEdge ..

theorem prepStep_mem_edges {g : Graph} {e : Node × Node} (hWF : WF g)
    (he : e ∈ g.edges) (p : Node × Node) :
    p ∈ (prepStep g e).edges ↔ p ∈ g.edges ∨ p = (e.2, e.1) := by
  unfold prepStep
  dsimp only
  split
  · next hcond =>
    rw [edges_setFlowDefault, edges_setFlowDefault]
    constructor
    · exact Or.inl
    · intro h
      rcases h with h | h
      · exact h
      · subst h
        exact mem_edges_of_hasEdge (by rw [hasEdge_setFlowDefault] at hcond; exact hcond)
  · next hcond =>
    rw [mem_edges_addEdge_new _ ?_ ?_ ?_, edges_setFlowDefault]
    · rw [hasNode_setFlowDefault]
      exact hasNode_of_mem_edges_snd hWF (by rw [show ((e.1, e.2) : Node × Node) = e from rfl]; exact he)
    · rw [hasNode_setFlowDefault]
      exact hasNode_of_mem_edges (a := e.1) (b := e.2) (by rw [show ((e.1, e.2) : Node × Node) = e from rfl]; exact he)
    · revert hcond
      cases (g.setFlowDefault e.1 e.2 0).hasEdge e.2 e.1 <;> simp

theorem prepStep_good_fwd {g : Graph} {e : Node × Node} (hWF : WF g)
    (he : e ∈ g.edges) : Good (prepStep g e) (e.1, e.2) := by
  have hxy : g.hasEdge e.1 e.2 = true :=
    hasEdge_of_mem_edges hWF (by rw [show ((e.1, e.2) : Node × Node) = e from rfl]; exact he)
  have hfs : flowSet (g.setFlowDefault e.1 e.2 0) e.1 e.2 = true :=
    flowSet_setFlowDefault_self 0 hxy
  constructor
  · show (prepStep g e).hasEdge e.2 e.1 = true
    unfold prepStep
    dsimp only
    split
    · next hcond =>
      rw [hasEdge_setFlowDefault, hasEdge_setFlowDefault] at *
      exact hcond
    · next hcond =>
      rw [hasEdge_addEdge_new]
      · rw [if_pos ⟨rfl, rfl⟩]
      · rw [hasNode_setFlowDefault]
        exact hasNode_of_mem_edges_snd hWF (by rw [show ((e.1, e.2) : Node × Node) = e from rfl]; exact he)
      · rw [hasNode_setFlowDefault]
        exact hasNode_of_mem_edges (a := e.1) (b := e.2) (by rw [show ((e.1, e.2) : Node × Node) = e from rfl]; exact he)
      · revert hcond
        cases (g.setFlowDefault e.1 e.2 0).hasEdge e.2 e.1 <;> simp
  · show flowSet (prepStep g e) e.1 e.2 = true
    unfold prepStep
    dsimp only
    split
    · exact flowSet_setFlowDefault_mono _ hfs
    · next hcond =>
      refine flowSet_addEdge_new_mono ?_ ?_ ?_ hfs
      · rw [hasNode_setFlowDefault]
        exact hasNode_of_mem_edges_snd hWF (by rw [show ((e.1, e.2) : Node × Node) = e from rfl]; exact he)
      · rw [hasNode_setFlowDefault]
        exact hasNode_of_mem_edges (a := e.1) (b := e.2) (by rw [show ((e.1, e.2) : Node × Node) = e from rfl]; exact he)
      · revert hcond
        cases (g.setFlowDefault e.1 e.2 0).hasEdge e.2 e.1 <;> simp

theorem flowSet_addEdge_new_self {g : Graph} {u v : Node}
    (hu : g.hasNode u = true) (hv : g.hasNode v = true)
    (hne : g.hasEdge u v = false) :
    flowSet (g.addEdge u v ⟨0, some 0⟩) u v = true := by
  unfold flowSet
  rw [getEdge?_addEdge_new _ hu hv hne, if_pos ⟨rfl, rfl⟩]
  rfl

theorem prepStep_good_rev {g : Graph} {e : Node × Node} (hWF : WF g)
    (he : e ∈ g.edges) : Good (prepStep g e) (e.2, e.1) := by
  have hxy : g.hasEdge e.1 e.2 = true :=
    hasEdge_of_mem_edges hWF (by rw [show ((e.1, e.2) : Node × Node) = e from rfl]; exact he)
  constructor
  · show (prepStep g e).hasEdge e.1 e.2 = true
    exact prepStep_hasEdge_mono hWF he hxy
  · show flowSet (prepStep g e) e.2 e.1 = true
    unfold prepStep
    dsimp only
    split
    · next hcond =>
      rw [hasEdge_setFlowDefault] at hcond
      exact flowSet_setFlowDefault_self 0 (by rw [hasEdge_setFlowDefault]; exact hcond)
    · next hcond =>
      refine flowSet_addEdge_new_self ?_ ?_ ?_
      · rw [hasNode_setFlowDefault]
        exact hasNode_of_mem_edges_snd hWF (by rw [show ((e.1, e.2) : Node × Node) = e from rfl]; exact he)
      · rw [hasNode_setFlowDefault]
        exact hasNode_of_mem_edges (a := e.1) (b := e.2) (by rw [show ((e.1, e.2) : Node × Node) = e from rfl]; exact he)
      · revert hcond
        cases (g.setFlowDefault e.1 e.2 0).hasEdge e.2 e.1 <;> simp

theorem prepStep_good_mono {g : Graph} {e : Node × Node} (hWF : WF g)
    (he : e ∈ g.edges) {p : Node × Node} (h : Good g p) : Good (prepStep g e) p :=
  ⟨prepStep_hasEdge_mono hWF he h.1, prepStep_flowSet_mono hWF he h.2⟩

/-- The invariant carried through the `prepare_graph` fold: remaining edges
exist, and every current edge is either already prepared or still pending. -/
theorem prep_fold_invariant :
    ∀ (es : List (Node × Node)) (g : Graph), WF g →
      (∀ p ∈ es, p ∈ g.edges) →
      (∀ p ∈ g.edges, Good g p ∨ p ∈ es) →
      WF (es.foldl prepStep g) ∧
        (es.foldl prepStep g).nodes = g.nodes ∧
        (∀ p ∈ (es.foldl prepStep g).edges, Good (es.foldl prepStep g) p) := by
  intro es
  induction es with
  | nil =>
    intro g hWF _ hinv
    refine ⟨hWF, rfl, fun p hp => ?_⟩
    rcases hinv p hp with h | h
    · exact h
    · cases h
  | cons e es ih =>
    intro g hWF hsub hinv
    have he : e ∈ g.edges := hsub e (List.mem_cons_self e es)
    have hWF1 : WF (prepStep g e) := prepStep_WF hWF he
    have hsub1 : ∀ p ∈ es, p ∈ (prepStep g e).edges := by
      intro p hp
      exact (prepStep_mem_edges hWF he p).mpr (Or.inl (hsub p (List.mem_cons_of_mem e hp)))
    have hinv1 : ∀ p ∈ (prepStep g e).edges, Good (prepStep g e) p ∨ p ∈ es := by
      intro p hp
      rcases (prepStep_mem_edges hWF he p).mp hp with hold | hrev
      · rcases hinv p hold with hgood | hmem
        · exact Or.inl (prepStep_good_mono hWF he hgood)
        · rcases List.mem_cons.mp hmem with heq | hmem'
          · exact Or.inl (by
              rw [heq]
              have hg := prepStep_good_fwd hWF he
              rwa [show ((e.1, e.2) : Node × Node) = e from rfl] at hg)
          · exact Or.inr hmem'
      · subst hrev
        exact Or.inl (prepStep_good_rev hWF he)
    have hres := ih (prepStep g e) hWF1 hsub1 hinv1
    refine ⟨hres.1, ?_, hres.2.2⟩
    rw [List.foldl_cons] at *
    rw [hres.2.1, prepStep_nodes hWF he]

theorem prepare_WF {G : Graph} (hWF : WF G) : WF (prepare_graph G) :=
  (prep_fold_invariant G.edges G hWF (fun _ hp => hp) (fun p hp => Or.inr hp)).1

theorem prepare_nodes {G : Graph} (hWF : WF G) : (prepare_graph G).nodes = G.nodes :=
  (prep_fold_invariant G.edges G hWF (fun _ hp => hp) (fun p hp => Or.inr hp)).2.1

theorem prepare_good {G : Graph} (hWF : WF G) :
    ∀ p ∈ (prepare_graph G).edges, Good (prepare_graph G) p :=
  (prep_fold_invariant G.edges G hWF (fun _ hp => hp) (fun p hp => Or.inr hp)).2.2

/-- After preparation the edge relation is symmetric. -/
theorem prepare_edgeSym {G : Graph} (hWF : WF G) : EdgeSym (prepare_graph G) := by
  intro a b
  have himp : ∀ x y : Node, (prepare_graph G).hasEdge x y = true →
      (prepare_graph G).hasEdge y x = true := by
    intro x y h
    exact (prepare_good hWF (x, y) (mem_edges_of_hasEdge h)).1
  cases hab : (prepare_graph G).hasEdge a b <;> cases hba : (prepare_graph G).hasEdge b a
  · rfl
  · rw [himp b a hba] at hab
    exact hab.symm
  · rw [himp a b hab] at hba
    exact hba
  · rfl

/-! ## Claim C9: idempotence of `prepare_graph` -/

theorem modifyEdge_id {g : Graph} {u v : Node} {f : EdgeData → EdgeData}
    (h : ∀ p ∈ g.adj, p.1 = u → ∀ q ∈ p.2, q.1 = v → f q.2 = q.2) :
    g.modifyEdge u v f = g := by
  rw [modifyEdge_eq_map]
  cases g with
  | mk adj =>
    congr 1
    conv_rhs => rw [← List.map_id adj]
    refine List.map_congr_left (fun p hp => ?_)
    show outerF u v f p = p
    unfold outerF
    split
    · next hkey =>
      rw [beq_iff_eq] at hkey
      have hinner : p.2.map (innerF v f) = p.2 := by
        conv_rhs => rw [← List.map_id p.2]
        refine List.map_congr_left (fun q hq => ?_)
        show innerF v f q = q
        unfold innerF
        split
        · next hkq =>
          rw [beq_iff_eq] at hkq
          rw [h p (by simpa using hp) hkey q (by simpa using hq) hkq]
        · rfl
      rw [hinner]
    · rfl

theorem setFlowDefault_id {g : Graph} {u v : Node} (hWF : WF g)
    (hfs : flowSet g u v = true) (x : ℚ) : g.setFlowDefault u v x = g := by
  unfold Graph.setFlowDefault
  refine modifyEdge_id (fun p hp hpu q hq hqv => ?_)
  have hsucc : g.succPairs u = p.2 := hpu ▸ succPairs_eq_of_mem hWF hp
  have hfind : p.2.find? (fun x => x.1 == q.1) = some q :=
    find?_eq_of_nodup (hWF.2.1 p hp) hq
  have hget : g.getEdge? u v = some q.2 := by
    unfold Graph.getEdge?
    rw [hsucc, ← hqv, hfind]
    rfl
  unfold flowSet at hfs
  rw [hget] at hfs
  replace hfs : (q.2.flow).isSome = true := hfs
  cases hflow : q.2.flow with
  | none => rw [hflow] at hfs; simp at hfs
  | some y =>
    show ({ capacity := q.2.capacity, flow := some ((some y).getD x) } : EdgeData) = q.2
    rw [show ((some y).getD x : ℚ) = y from rfl, ← hflow]

theorem prepStep_id {g : Graph} {e : Node × Node} (hWF : WF g)
    (hall : ∀ p ∈ g.edges, Good g p) (he : e ∈ g.edges) : prepStep g e = g := by
  have hGood := hall e he
  have hrevmem : (e.2, e.1) ∈ g.edges := mem_edges_of_hasEdge hGood.1
  have hGoodRev := hall _ hrevmem
  unfold prepStep
  dsimp only
  rw [setFlowDefault_id hWF hGood.2]
  rw [if_pos hGood.1]
  exact setFlowDefault_id hWF hGoodRev.2 0

theorem foldl_prepStep_id {g : Graph} (hWF : WF g)
    (hall : ∀ p ∈ g.edges, Good g p) :
    ∀ es : List (Node × Node), (∀ p ∈ es, p ∈ g.edges) →
      es.foldl prepStep g = g := by
  intro es
  induction es with
  | nil => intro _; rfl
  | cons e es ih =>
    intro hsub
    rw [List.foldl_cons, prepStep_id hWF hall (hsub e (List.mem_cons_self e es))]
    exact ih (fun p hp => hsub p (List.mem_cons_of_mem e hp))

/-- **C9.**  `prepare_graph` is idempotent on any well-formed graph: the
second invocation finds every flow attribute already initialized and every
reverse edge already present, so each of its steps is the identity and the
resulting graph — edge set and flow values included — is unchanged.
(`WF` captures what networkx guarantees for its dictionary-backed graphs:
distinct node keys, distinct successor keys, and edge targets that are
nodes.) -/
theorem C9_prepare_idempotent {G : Graph} (hWF : WF G) :
    prepare_graph (prepare_graph G) = prepare_graph G := by
  show (prepare_graph G).edges.foldl prepStep (prepare_graph G) = prepare_graph G
  exact foldl_prepStep_id (prepare_WF hWF) (prepare_good hWF) _ (fun p hp => hp)

/-- Witness: `C9_prepare_idempotent` applied to the concrete line network. -/
theorem C9_prepare_idempotent_witness :
    WF lineG ∧ prepare_graph (prepare_graph lineG) = prepare_graph lineG :=
  ⟨by decide, C9_prepare_idempotent (by decide)⟩

/-! ## Claim C10: Edmonds–Karp ignores pre-existing flow values -/

theorem nodes_mapFlows (g : Graph) (f : EdgeData → EdgeData) :
    (mapFlows g f).nodes = g.nodes := by
  unfold mapFlows Graph.nodes
  rw [List.map_map]
  exact List.map_congr_left (fun p _ => rfl)

theorem hasNode_mapFlows (g : Graph) (f : EdgeData → EdgeData) (w : Node) :
    (mapFlows g f).hasNode w = g.hasNode w := by
  unfold mapFlows
  exact hasNode_mapKeys g (fun p => (p.1, p.2.map (fun q => (q.1, f q.2)))) (fun p => rfl) w

theorem succPairs_mapFlows (g : Graph) (f : EdgeData → EdgeData) (a : Node) :
    (mapFlows g f).succPairs a = (g.succPairs a).map (fun q => (q.1, f q.2)) := by
  unfold mapFlows Graph.succPairs
  rw [find?_key_map g.adj (fun p => (p.1, p.2.map (fun q => (q.1, f q.2)))) (fun p => rfl)]
  cases g.adj.find? (fun p => p.1 == a) <;> simp

theorem getEdge?_mapFlows (g : Graph) (f : EdgeData → EdgeData) (a b : Node) :
    (mapFlows g f).getEdge? a b = (g.getEdge? a b).map f := by
  unfold Graph.getEdge?
  rw [succPairs_mapFlows]
  rw [find?_key_map (g.succPairs a) (fun q => (q.1, f q.2)) (fun q => rfl)]
  cases (g.succPairs a).find? (fun q => q.1 == b) <;> rfl

theorem hasEdge_mapFlows (g : Graph) (f : EdgeData → EdgeData) (a b : Node) :
    (mapFlows g f).hasEdge a b = g.hasEdge a b := by
  unfold Graph.hasEdge
  rw [getEdge?_mapFlows]
  cases g.getEdge? a b <;> rfl

theorem edges_mapFlows (g : Graph) (f : EdgeData → EdgeData) :
    (mapFlows g f).edges = g.edges := by
  unfold mapFlows Graph.edges
  rw [List.flatMap_map]
  refine List.flatMap_congr (fun p _ => ?_)
  rw [List.map_map]
  exact List.map_congr_left (fun q _ => rfl)

theorem mapFlows_comp (g : Graph) (f h : EdgeData → EdgeData) :
    mapFlows (mapFlows g f) h = mapFlows g (fun e => h (f e)) := by
  unfold mapFlows
  simp only [List.map_map]
  congr 1
  refine List.map_congr_left (fun p _ => ?_)
  simp only [Function.comp]
  rw [List.map_map]
  refine congrArg _ (List.map_congr_left (fun q _ => rfl))

theorem mapFlows_congr (g : Graph) {f h : EdgeData → EdgeData}
    (hfh : ∀ e, f e = h e) : mapFlows g f = mapFlows g h := by
  unfold mapFlows
  congr 1
  refine List.map_congr_left (fun p _ => ?_)
  refine congrArg _ (List.map_congr_left (fun q _ => ?_))
  rw [hfh]

theorem mapFlows_modifyEdge_absorb (g : Graph) (u v : Node)
    (f h : EdgeData → EdgeData) (habs : ∀ e, h (f e) = h e) :
    mapFlows (g.modifyEdge u v f) h = mapFlows g h := by
  rw [modifyEdge_eq_map]
  unfold mapFlows
  simp only [List.map_map]
  congr 1
  refine List.map_congr_left (fun p _ => ?_)
  simp only [Function.comp]
  unfold outerF
  split
  · rw [List.map_map]
    refine congrArg _ (List.map_congr_left (fun q _ => ?_))
    simp only [Function.comp]
    unfold innerF
    split
    · show (q.1, h (f q.2)) = (q.1, h q.2)
      rw [habs]
    · rfl
  · rfl

theorem mapFlows_addNode (g : Graph) (u : Node) (f : EdgeData → EdgeData) :
    mapFlows (g.addNode u) f = (mapFlows g f).addNode u := by
  unfold Graph.addNode
  rw [hasNode_mapFlows]
  split
  · rfl
  · unfold mapFlows
    simp

theorem mapFlows_modifyEdge_const (g : Graph) (u v : Node)
    (e : EdgeData) (f : EdgeData → EdgeData) :
    mapFlows (g.modifyEdge u v (fun _ => e)) f =
      (mapFlows g f).modifyEdge u v (fun _ => f e) := by
  rw [modifyEdge_eq_map, modifyEdge_eq_map]
  unfold mapFlows
  simp only [List.map_map]
  congr 1
  refine List.map_congr_left (fun p _ => ?_)
  simp only [Function.comp]
  unfold outerF
  split
  · rw [List.map_map, List.map_map]
    refine congrArg _ (List.map_congr_left (fun q _ => ?_))
    simp only [Function.comp]
    unfold innerF
    split <;> rfl
  · rfl

theorem mapFlows_addEdge (g : Graph) (u v : Node) (e : EdgeData)
    (f : EdgeData → EdgeData) :
    mapFlows (g.addEdge u v e) f = (mapFlows g f).addEdge u v (f e) := by
  unfold Graph.addEdge
  dsimp only
  have h1 : ((mapFlows g f).addNode u).addNode v = mapFlows ((g.addNode u).addNode v) f := by
    rw [mapFlows_addNode, mapFlows_addNode]
  rw [h1, hasEdge_mapFlows]
  split
  · exact mapFlows_modifyEdge_const ..
  · unfold mapFlows
    simp only [List.map_map]
    congr 1
    refine List.map_congr_left (fun p _ => ?_)
    simp only [Function.comp]
    split
    · rw [List.map_append]
      rfl
    · rfl

theorem stripFlows_setFlowDefault (g : Graph) (u v : Node) (x : ℚ) :
    stripFlows (g.setFlowDefault u v x) = stripFlows g := by
  unfold stripFlows Graph.setFlowDefault
  exact mapFlows_modifyEdge_absorb g u v _ _ (fun e => rfl)

theorem hasEdge_stripFlows (g : Graph) (a b : Node) :
    (stripFlows g).hasEdge a b = g.hasEdge a b := hasEdge_mapFlows ..

theorem edges_stripFlows (g : Graph) : (stripFlows g).edges = g.edges := edges_mapFlows ..

theorem stripFlows_prepStep {g1 g2 : Graph} (e : Node × Node)
    (h : stripFlows g1 = stripFlows g2) :
    stripFlows (prepStep g1 e) = stripFlows (prepStep g2 e) := by
  have hset : stripFlows (g1.setFlowDefault e.1 e.2 0) =
      stripFlows (g2.setFlowDefault e.1 e.2 0) := by
    rw [stripFlows_setFlowDefault, stripFlows_setFlowDefault, h]
  have hcond : (g1.setFlowDefault e.1 e.2 0).hasEdge e.2 e.1 =
      (g2.setFlowDefault e.1 e.2 0).hasEdge e.2 e.1 := by
    rw [← hasEdge_stripFlows, hset, hasEdge_stripFlows]
  unfold prepStep
  dsimp only
  rw [hcond]
  split
  · rw [stripFlows_setFlowDefault, stripFlows_setFlowDefault,
      stripFlows_setFlowDefault, stripFlows_setFlowDefault]
    exact h
  · show stripFlows ((g1.setFlowDefault e.1 e.2 0).addEdge e.2 e.1 ⟨0, some 0⟩) = _
    unfold stripFlows
    rw [mapFlows_addEdge, mapFlows_addEdge]
    unfold stripFlows at hset
    rw [hset]

theorem stripFlows_prepare {g1 g2 : Graph}
    (h : stripFlows g1 = stripFlows g2) :
    stripFlows (prepare_graph g1) = stripFlows (prepare_graph g2) := by
  have hedges : g1.edges = g2.edges := by
    rw [← edges_stripFlows g1, h, edges_stripFlows]
  show stripFlows (g1.edges.foldl prepStep g1) = stripFlows (g2.edges.foldl prepStep g2)
  rw [hedges]
  clear hedges
  generalize g2.edges = es
  induction es generalizing g1 g2 with
  | nil => exact h
  | cons e es ih =>
    rw [List.foldl_cons, List.foldl_cons]
    exact ih (stripFlows_prepStep e h)

theorem zeroAllFlows_stripFlows (g : Graph) :
    zeroAllFlows (stripFlows g) = zeroAllFlows g := by
  unfold zeroAllFlows stripFlows
  rw [mapFlows_comp]

theorem zeroAllFlows_eq_of_strip {g1 g2 : Graph}
    (h : stripFlows g1 = stripFlows g2) : zeroAllFlows g1 = zeroAllFlows g2 := by
  rw [← zeroAllFlows_stripFlows g1, h, zeroAllFlows_stripFlows]

/-- **C10.**  `edmonds_karp_steps` resets every flow attribute to 0 after
preparation (lines 38–39), so its entire output — the mutated graph, the step
list and the max-flow value — depends only on the structure and capacities
of the input graph, not on any pre-existing flow values.  Two inputs that
agree after `stripFlows` (same nodes, edges and capacities; arbitrary flow
attributes) produce identical results. -/
theorem C10_ek_ignores_preexisting_flow {G1 G2 : Graph} (fuel : ℕ) (s t : Node)
    (h : stripFlows G1 = stripFlows G2) :
    edmonds_karp_steps fuel G1 s t = edmonds_karp_steps fuel G2 s t := by
  unfold edmonds_karp_steps
  rw [zeroAllFlows_eq_of_strip (stripFlows_prepare h)]

/-- Witness: two concrete line networks differing only in a pre-existing
flow attribute (5 on `S→A` versus none) give the same Edmonds–Karp run. -/
theorem C10_ek_ignores_preexisting_flow_witness :
    stripFlows (((⟨[]⟩ : Graph).addEdge "S" "A" ⟨5, some 5⟩).addEdge "A" "T" ⟨3, none⟩) =
      stripFlows lineG ∧
    edmonds_karp_steps 10 (((⟨[]⟩ : Graph).addEdge "S" "A" ⟨5, some 5⟩).addEdge "A" "T" ⟨3, none⟩) "S" "T" =
      edmonds_karp_steps 10 lineG "S" "T" :=
  ⟨by with_unfolding_all rfl,
    C10_ek_ignores_preexisting_flow 10 "S" "T" (by with_unfolding_all rfl)⟩

/-! ## Claim C8: skew symmetry -/

/-- The input graph carries no pre-existing nonzero flow (a freshly built
capacitated graph in the sense of spec §4.1: edges carry `capacity`, and any
`flow` attribute, if present at all, is 0). -/
def FlowsClear (G : Graph) : Prop := ∀ p ∈ G.edges, G.flowD p.1 p.2 = 0

instance (G : Graph) : Decidable (FlowsClear G) := by
  unfold FlowsClear; infer_instance

theorem flowD_eq_zero_of_clear {G : Graph} (h : FlowsClear G) (a b : Node) :
    G.flowD a b = 0 := by
  cases hE : G.hasEdge a b with
  | true => exact h (a, b) (mem_edges_of_hasEdge hE)
  | false =>
    unfold Graph.hasEdge at hE
    unfold Graph.flowD
    cases hg : G.getEdge? a b with
    | none => rfl
    | some e => rw [hg] at hE; simp at hE

theorem flowD_setFlowDefault_zero (g : Graph) (u v a b : Node) :
    (g.setFlowDefault u v 0).flowD a b = g.flowD a b := by
  unfold Graph.setFlowDefault Graph.flowD
  rw [getEdge?_modifyEdge]
  split
  · next hcond =>
    obtain ⟨ha, hb⟩ := hcond
    subst ha; subst hb
    cases g.getEdge? a b with
    | none => rfl
    | some e =>
      cases e.flow <;> simp
  · rfl

theorem flowD_addEdge_new {g : Graph} {u v : Node}
    (hu : g.hasNode u = true) (hv : g.hasNode v = true)
    (hne : g.hasEdge u v = false) (a b : Node) :
    (g.addEdge u v ⟨0, some 0⟩).flowD a b =
      if a = u ∧ b = v then 0 else g.flowD a b := by
  unfold Graph.flowD
  rw [getEdge?_addEdge_new _ hu hv hne]
  split <;> rfl

theorem prepStep_flowD_zero {g : Graph} {e : Node × Node} (hWF : WF g)
    (he : e ∈ g.edges) (h0 : ∀ a b, g.flowD a b = 0) :
    ∀ a b, (prepStep g e).flowD a b = 0 := by
  intro a b
  unfold prepStep
  dsimp only
  split
  · rw [flowD_setFlowDefault_zero, flowD_setFlowDefault_zero]
    exact h0 a b
  · next hcond =>
    rw [flowD_addEdge_new]
    · split
      · rfl
      · rw [flowD_setFlowDefault_zero]; exact h0 a b
    · rw [hasNode_setFlowDefault]
      exact hasNode_of_mem_edges_snd hWF (by rw [show ((e.1, e.2) : Node × Node) = e from rfl]; exact he)
    · rw [hasNode_setFlowDefault]
      exact hasNode_of_mem_edges (a := e.1) (b := e.2) (by rw [show ((e.1, e.2) : Node × Node) = e from rfl]; exact he)
    · revert hcond
      cases (g.setFlowDefault e.1 e.2 0).hasEdge e.2 e.1 <;> simp

theorem prep_fold_flowD_zero :
    ∀ (es : List (Node × Node)) (g : Graph), WF g →
      (∀ p ∈ es, p ∈ g.edges) → (∀ a b, g.flowD a b = 0) →
      ∀ a b, (es.foldl prepStep g).flowD a b = 0 := by
  intro es
  induction es with
  | nil => intro g _ _ h0; exact h0
  | cons e es ih =>
    intro g hWF hsub h0
    have he : e ∈ g.edges := hsub e (List.mem_cons_self e es)
    rw [List.foldl_cons]
    refine ih (prepStep g e) (prepStep_WF hWF he) ?_ (prepStep_flowD_zero hWF he h0)
    intro p hp
    exact (prepStep_mem_edges hWF he p).mpr (Or.inl (hsub p (List.mem_cons_of_mem e hp)))

theorem prepare_flowD_zero {G : Graph} (hWF : WF G) (hFC : FlowsClear G) :
    ∀ a b, (prepare_graph G).flowD a b = 0 :=
  prep_fold_flowD_zero G.edges G hWF (fun _ hp => hp) (flowD_eq_zero_of_clear hFC)

theorem skewSymm_of_flowD_zero {g : Graph} (h0 : ∀ a b, g.flowD a b = 0) :
    SkewSymm g := by
  intro p _
  rw [h0, h0]
  ring

/-- The invariant carried through every solver run: symmetric edge relation
and skew-symmetric flows. -/
def FlowInv (g : Graph) : Prop := EdgeSym g ∧ SkewSymm g

theorem flowInv_addFlowPair {g : Graph} (u v : Node) (d : ℚ)
    (h : FlowInv g) : FlowInv (addFlowPair g u v d) := by
  refine ⟨?_, skewSymm_addFlowPair u v d h.1 h.2⟩
  intro a b
  rw [hasEdge_addFlowPair, hasEdge_addFlowPair]
  exact h.1 a b

theorem flowInv_foldl_addFlowPair {d : ℚ} :
    ∀ (path : List (Node × Node)) (g : Graph), FlowInv g →
      FlowInv (path.foldl (fun h uv => addFlowPair h uv.1 uv.2 d) g) := by
  intro path
  induction path with
  | nil => intro g h; exact h
  | cons uv path ih =>
    intro g h
    rw [List.foldl_cons]
    exact ih _ (flowInv_addFlowPair uv.1 uv.2 d h)

theorem flowD_zeroAllFlows (g : Graph) (a b : Node) :
    (zeroAllFlows g).flowD a b = 0 := by
  unfold zeroAllFlows Graph.flowD
  rw [getEdge?_mapFlows]
  cases g.getEdge? a b <;> rfl

theorem edgeSym_mapFlows {g : Graph} (f : EdgeData → EdgeData)
    (h : EdgeSym g) : EdgeSym (mapFlows g f) := by
  intro a b
  rw [hasEdge_mapFlows, hasEdge_mapFlows]
  exact h a b

theorem ekLoop_inv (s t : Node) :
    ∀ (fuel : ℕ) (g : Graph) (steps : List EkStep) (mf : WithTop ℚ),
      FlowInv g → FlowInv (ekLoop s t fuel g steps mf).1 := by
  intro fuel
  induction fuel with
  | zero => intro g steps mf h; exact h
  | succ n ih =>
    intro g steps mf h
    show FlowInv (ekLoop s t (n + 1) g steps mf).1
    rw [ekLoop]
    cases hb : bfs g s t with
    | error e => exact h
    | ok r =>
      obtain ⟨found, parent⟩ := r
      cases found with
      | false => exact h
      | true =>
        dsimp only
        cases hw : walkParent g parent s (parent.length + 1) t [] ⊤ with
        | error e => exact h
        | ok pr =>
          obtain ⟨path, pf⟩ := pr
          exact ih _ _ _ (flowInv_foldl_addFlowPair path g h)

/-- Skew symmetry after a full Edmonds–Karp run on a well-formed graph. -/
theorem ek_skewSymm {G : Graph} (hWF : WF G) (fuel : ℕ) (s t : Node) :
    SkewSymm (edmonds_karp_steps fuel G s t).1 := by
  unfold edmonds_karp_steps
  refine (ekLoop_inv s t fuel _ [] 0 ⟨?_, ?_⟩).2
  · exact edgeSym_mapFlows _ (prepare_edgeSym hWF)
  · exact skewSymm_of_flowD_zero (flowD_zeroAllFlows (prepare_graph G))

theorem dinicDfs_inv (t : Node) (level : List (Node × Int)) :
    ∀ (fuel : ℕ) (g : Graph) (it : List (Node × ℕ)) (u : Node) (pushed : WithTop ℚ),
      FlowInv g → FlowInv (dinicDfs t level fuel g it u pushed).1 := by
  intro fuel
  induction fuel with
  | zero => intro g it u pushed h; exact h
  | succ n ih =>
    intro g it u pushed h
    rw [dinicDfs]
    split
    · exact h
    · dsimp only
      split
    
      · split
        · split
          · exact flowInv_addFlowPair _ _ _ (ih _ _ _ _ h)
          · exact ih _ _ _ _ (ih _ _ _ _ h)
        · exact ih _ _ _ _ h
      · exact h

theorem dinicInner_inv (s t : Node) (level : List (Node × Int)) :
    ∀ (fuel : ℕ) (g : Graph) (it : List (Node × ℕ)) (mf : WithTop ℚ),
      FlowInv g → FlowInv (dinicInner s t level fuel g it mf).1 := by
  intro fuel
  induction fuel with
  | zero => intro g it mf h; exact h
  | succ n ih =>
    intro g it mf h
    rw [dinicInner]
    split
    · exact dinicDfs_inv t level _ g it s ⊤ h
    · exact ih _ _ _ (dinicDfs_inv t level _ g it s ⊤ h)

theorem dinicOuter_inv (s t : Node) :
    ∀ (fuel : ℕ) (g : Graph) (mf : WithTop ℚ),
      FlowInv g → FlowInv (dinicOuter s t fuel g mf).1 := by
  intro fuel
  induction fuel with
  | zero => intro g mf h; exact h
  | succ n ih =>
    intro g mf h
    rw [dinicOuter]
    dsimp only
    split
    · exact h
    · cases hI : dinicInner s t (bfs_level g s) (n + 1) g (g.nodes.map (fun x => (x, 0))) mf with
      | mk g1 r =>
        cases r with
        | error e =>
          have := dinicInner_inv s t (bfs_level g s) (n + 1) g (g.nodes.map (fun x => (x, 0))) mf h
          rw [hI] at this
          exact this
        | ok mf1 =>
          refine ih g1 mf1 ?_
          have := dinicInner_inv s t (bfs_level g s) (n + 1) g (g.nodes.map (fun x => (x, 0))) mf h
          rw [hI] at this
          exact this

/-- Skew symmetry after a full Dinic run on a well-formed, flow-clear
graph. -/
theorem dinic_skewSymm {G : Graph} (hWF : WF G) (hFC : FlowsClear G)
    (fuel : ℕ) (s t : Node) : SkewSymm (dinic_apply fuel G s t).1 := by
  unfold dinic_apply
  refine (dinicOuter_inv s t fuel _ 0 ⟨?_, ?_⟩).2
  · exact prepare_edgeSym hWF
  · exact skewSymm_of_flowD_zero (prepare_flowD_zero hWF hFC)

theorem modifyEdge_congr {g : Graph} {u v : Node} {f f' : EdgeData → EdgeData}
    (h : ∀ p ∈ g.adj, p.1 = u → ∀ q ∈ p.2, q.1 = v → f q.2 = f' q.2) :
    g.modifyEdge u v f = g.modifyEdge u v f' := by
  rw [modifyEdge_eq_map, modifyEdge_eq_map]
  congr 1
  refine List.map_congr_left (fun p hp => ?_)
  unfold outerF
  split
  · next hkey =>
    rw [beq_iff_eq] at hkey
    refine congrArg _ (List.map_congr_left (fun q hq => ?_))
    unfold innerF
    split
    · next hkq =>
      rw [beq_iff_eq] at hkq
      rw [h p hp hkey q hq hkq]
    · rfl
  · rfl

/-- On a well-formed graph whose `(u,v)` flow attribute is present and 0,
assigning `flow = x` is the same graph as adding `x` to the flow. -/
theorem setFlow_eq_modifyFlow_add {g : Graph} {u v : Node} (hWF : WF g)
    (hfs : flowSet g u v = true) (h0 : g.flowD u v = 0) (x : ℚ) :
    g.setFlow u v x = g.modifyFlow u v (fun w => w + x) := by
  unfold Graph.setFlow Graph.modifyFlow
  refine modifyEdge_congr (fun p hp hpu q hq hqv => ?_)
  have hsucc : g.succPairs u = p.2 := hpu ▸ succPairs_eq_of_mem hWF hp
  have hfind : p.2.find? (fun y => y.1 == q.1) = some q :=
    find?_eq_of_nodup (hWF.2.1 p hp) hq
  have hget : g.getEdge? u v = some q.2 := by
    unfold Graph.getEdge?
    rw [hsucc, ← hqv, hfind]
    rfl
  unfold flowSet at hfs
  rw [hget] at hfs
  replace hfs : (q.2.flow).isSome = true := hfs
  unfold Graph.flowD at h0
  rw [hget] at h0
  replace h0 : (q.2.flow).getD 0 = 0 := h0
  cases hflow : q.2.flow with
  | none => rw [hflow] at hfs; simp at hfs
  | some y =>
    rw [hflow] at h0
    simp only [Option.getD_some] at h0
    subst h0
    simp

/-- A self-pair update leaves every flow value unchanged. -/
theorem flowD_addFlowPair_self (g : Graph) (u : Node) (d : ℚ) (a b : Node) :
    (addFlowPair g u u d).flowD a b = g.flowD a b := by
  unfold addFlowPair
  rw [flowD_modifyFlow, hasEdge_modifyFlow]
  by_cases hab : a = u ∧ b = u ∧ g.hasEdge u u = true
  · obtain ⟨ha, hb, he⟩ := hab
    subst ha; subst hb
    rw [if_pos ⟨rfl, rfl, he⟩]
    rw [flowD_modifyFlow]
    rw [if_pos ⟨rfl, rfl, he⟩]
    ring
  · rw [if_neg hab, flowD_modifyFlow, if_neg hab]

/-- Every existing edge has its flow attribute present. -/
def AllSet (g : Graph) : Prop :=
  ∀ a b : Node, g.hasEdge a b = true → flowSet g a b = true

theorem flowSet_modifyFlow (g : Graph) (u v a b : Node) (h : ℚ → ℚ) :
    flowSet (g.modifyFlow u v h) a b =
      if a = u ∧ b = v ∧ g.hasEdge u v = true then true else flowSet g a b := by
  unfold flowSet Graph.modifyFlow Graph.hasEdge
  rw [getEdge?_modifyEdge]
  by_cases hab : a = u ∧ b = v
  · obtain ⟨ha, hb⟩ := hab
    subst ha; subst hb
    rw [if_pos ⟨rfl, rfl⟩]
    cases g.getEdge? a b with
    | none => simp
    | some e => simp
  · rw [if_neg hab, if_neg (fun hh => hab ⟨hh.1, hh.2.1⟩)]

theorem allSet_addFlowPair {g : Graph} (u v : Node) (d : ℚ)
    (h : AllSet g) : AllSet (addFlowPair g u v d) := by
  intro a b hE
  rw [hasEdge_addFlowPair] at hE
  unfold addFlowPair
  rw [flowSet_modifyFlow]
  split
  · rfl
  · rw [flowSet_modifyFlow]
    split
    · rfl
    · exact h a b hE

theorem WF_addFlowPair {g : Graph} (u v : Node) (d : ℚ) (hWF : WF g) :
    WF (addFlowPair g u v d) := WF_modifyEdge _ _ _ (WF_modifyEdge _ _ _ hWF)

theorem hasEdge_of_mem_succList {g : Graph} {u v : Node}
    (h : v ∈ g.succList u) : g.hasEdge u v = true := by
  unfold Graph.succList at h
  rw [List.mem_map] at h
  obtain ⟨q, hq, hqv⟩ := h
  unfold Graph.hasEdge Graph.getEdge?
  cases hfind : (g.succPairs u).find? (fun p => p.1 == v) with
  | none =>
    rw [List.find?_eq_none] at hfind
    exact absurd (by simp [hqv]) (hfind q hq)
  | some r => rfl

theorem succList_nodup {g : Graph} (hWF : WF g) (u : Node) :
    (g.succList u).Nodup := by
  unfold Graph.succList Graph.succPairs
  cases hfind : g.adj.find? (fun p => p.1 == u) with
  | none => simp
  | some p => exact hWF.2.1 p (List.mem_of_find?_eq_some hfind)

theorem prSaturate_inv (s : Node) :
    ∀ (vs : List Node) (st : PRState),
      WF st.g → EdgeSym st.g → SkewSymm st.g → AllSet st.g →
      vs.Nodup →
      (∀ v ∈ vs, st.g.hasEdge s v = true) →
      (∀ v ∈ vs, st.g.flowD s v = 0) →
      WF (prSaturate s vs st).g ∧ EdgeSym (prSaturate s vs st).g ∧
        SkewSymm (prSaturate s vs st).g ∧ AllSet (prSaturate s vs st).g := by
  intro vs
  induction vs with
  | nil => intro st hWF hSym hSkew hSet _ _ _; exact ⟨hWF, hSym, hSkew, hSet⟩
  | cons v vs ih =>
    intro st hWF hSym hSkew hSet hnd hhas h0
    rw [List.nodup_cons] at hnd
    have hE : st.g.hasEdge s v = true := hhas v (List.mem_cons_self v vs)
    have hfold : prSaturate s (v :: vs) st =
        prSaturate s vs
          { st with
              g := (st.g.setFlow s v (st.g.capD s v)).modifyFlow v s
                (fun x => x - st.g.capD s v)
              excess := assocSet st.excess v
                (assocD st.excess v 0 + st.g.capD s v) } := rfl
    rw [hfold]
    have hg' : (st.g.setFlow s v (st.g.capD s v)).modifyFlow v s
        (fun x => x - st.g.capD s v) = addFlowPair st.g s v (st.g.capD s v) := by
      rw [setFlow_eq_modifyFlow_add hWF (hSet s v hE) (h0 v (List.mem_cons_self v vs))]
      rfl
    refine ih _ ?_ ?_ ?_ ?_ hnd.2 ?_ ?_
    · show WF ((st.g.setFlow s v (st.g.capD s v)).modifyFlow v s _)
      rw [hg']
      exact WF_addFlowPair _ _ _ hWF
    · show EdgeSym ((st.g.setFlow s v (st.g.capD s v)).modifyFlow v s _)
      rw [hg']
      intro a b
      rw [hasEdge_addFlowPair, hasEdge_addFlowPair]
      exact hSym a b
    · show SkewSymm ((st.g.setFlow s v (st.g.capD s v)).modifyFlow v s _)
      rw [hg']
      exact skewSymm_addFlowPair _ _ _ hSym hSkew
    · show AllSet ((st.g.setFlow s v (st.g.capD s v)).modifyFlow v s _)
      rw [hg']
      exact allSet_addFlowPair _ _ _ hSet
    · intro v' hv'
      show ((st.g.setFlow s v (st.g.capD s v)).modifyFlow v s _).hasEdge s v' = true
      rw [hg', hasEdge_addFlowPair]
      exact hhas v' (List.mem_cons_of_mem v hv')
    · intro v' hv'
      show ((st.g.setFlow s v (st.g.capD s v)).modifyFlow v s _).flowD s v' = 0
      rw [hg']
      by_cases hsv : s = v
      · subst hsv
        rw [flowD_addFlowPair_self]
        exact h0 v' (List.mem_cons_of_mem s hv')
      · rw [flowD_addFlowPair _ _ _ _ _ _ hsv]
        have hv'v : v' ≠ v := fun hcontra => hnd.1 (hcontra ▸ hv')
        rw [if_neg (fun hh => hv'v hh.2.1)]
        rw [if_neg (fun hh => hsv hh.1)]
        exact h0 v' (List.mem_cons_of_mem v hv')

theorem prPush_inv (st : PRState) (u v : Node) (h : FlowInv st.g) :
    FlowInv ((prPush st u v).1.g) := by
  unfold prPush
  dsimp only
  split
  · exact h
  · exact flowInv_addFlowPair _ _ _ h

theorem prScan_inv (s t u : Node) :
    ∀ (vs : List Node) (st : PRState), FlowInv st.g →
      FlowInv (prScan s t u vs st).g := by
  intro vs
  induction vs with
  | nil => intro st h; exact h
  | cons v vs ih =>
    intro st h
    rw [prScan]
    dsimp only
    split
    · split
      · split
        · exact prPush_inv st u v h
        · refine ih _ ?_
          show FlowInv ((prPush st u v).1).g
          exact prPush_inv st u v h
      · split
        · exact prPush_inv st u v h
        · exact ih _ (prPush_inv st u v h)
    · exact ih _ (prPush_inv st u v h)

theorem prRelabel_g (st : PRState) (u : Node) : (prRelabel st u).g = st.g := by
  unfold prRelabel
  dsimp only
  split <;> rfl

theorem prLoop_inv (s t : Node) :
    ∀ (fuel : ℕ) (i : ℕ) (st st2 : PRState), FlowInv st.g →
      prLoop s t fuel i st = .ok st2 → FlowInv st2.g := by
  intro fuel
  induction fuel with
  | zero => intro i st st2 _ hcontra; cases hcontra
  | succ n ih =>
    intro i st st2 h hok
    rw [prLoop] at hok
    revert hok
    split
    · dsimp only
      have hscan : FlowInv (prScan s t (st.active[i]) (st.g.succList (st.active[i])) st).g :=
        prScan_inv _ _ _ _ _ h
      split
      · split
        · intro hok
          refine ih 0 _ st2 ?_ hok
          show FlowInv (prRelabel (prScan s t _ _ st) _).g
          rw [prRelabel_g]
          exact hscan
        · intro hok
          refine ih (i + 1) _ st2 ?_ hok
          show FlowInv (prRelabel (prScan s t _ _ st) _).g
          rw [prRelabel_g]
          exact hscan
      · split
        · intro hok
          refine ih 0 _ st2 ?_ hok
          exact hscan
        · intro hok
          refine ih (i + 1) _ st2 ?_ hok
          exact hscan
    · intro hok
      injection hok with hok
      subst hok
      exact h

/-- Skew symmetry after a full push-relabel run on a well-formed, flow-clear
graph. -/
theorem pr_skewSymm {G : Graph} (hWF : WF G) (hFC : FlowsClear G)
    (fuel : ℕ) (s t : Node) : SkewSymm (push_relabel_apply fuel G s t).1 := by
  have hPW : WF (prepare_graph G) := prepare_WF hWF
  have hPSym : EdgeSym (prepare_graph G) := prepare_edgeSym hWF
  have hPSkew : SkewSymm (prepare_graph G) :=
    skewSymm_of_flowD_zero (prepare_flowD_zero hWF hFC)
  have hPSet : AllSet (prepare_graph G) := fun a b hE =>
    (prepare_good hWF (a, b) (mem_edges_of_hasEdge hE)).2
  have hsat := prSaturate_inv s ((prepare_graph G).succList s)
    ⟨prepare_graph G,
      (prepare_graph G).nodes.map (fun u => (u, (0 : ℚ))),
      assocSet ((prepare_graph G).nodes.map (fun u => (u, (0 : Int)))) s
        ((prepare_graph G).nodes.length : Int),
      [], []⟩
    hPW hPSym hPSkew hPSet (succList_nodup hPW s)
    (fun v hv => hasEdge_of_mem_succList hv)
    (fun v _ => prepare_flowD_zero hWF hFC s v)
  unfold push_relabel_apply push_relabel_core
  dsimp only
  split
  · exact hsat.2.2.1
  · next st2 heq =>
    refine (prLoop_inv s t fuel 0 _ st2 ?_ heq).2
    exact ⟨hsat.2.1, hsat.2.2.1⟩

/-- **C8.**  After any of the three solvers completes on a prepared graph
(a well-formed graph whose edges carry no pre-existing nonzero flow, as
produced by the external builder of spec §4.1), every edge pair satisfies
`flow(u,v) = -flow(v,u)`; and each individual push — the shared two-line
update `addFlowPair` used by the augmenting fold (lines 56–57), Dinic's DFS
(lines 95–96) and push-relabel's `push` (lines 142–143) — changes `flow(u,v)`
by `+d` and `flow(v,u)` by `-d` in the same step. -/
theorem C8_skew_symmetry (G : Graph) (s t : Node) (fe fd fp : ℕ)
    (hWF : WF G) (hFC : FlowsClear G) :
    SkewSymm (edmonds_karp_steps fe G s t).1 ∧
    SkewSymm (dinic_apply fd G s t).1 ∧
    SkewSymm (push_relabel_apply fp G s t).1 ∧
    (∀ (g : Graph) (u v : Node) (d : ℚ), u ≠ v →
      g.hasEdge u v = true → g.hasEdge v u = true →
      (addFlowPair g u v d).flowD u v = g.flowD u v + d ∧
      (addFlowPair g u v d).flowD v u = g.flowD v u - d) := by
  refine ⟨ek_skewSymm hWF fe s t, dinic_skewSymm hWF hFC fd s t,
    pr_skewSymm hWF hFC fp s t, fun g u v d hne hE hE' => ?_⟩
  constructor
  · rw [flowD_addFlowPair _ _ _ _ _ _ hne, if_pos ⟨rfl, rfl, hE⟩]
  · rw [flowD_addFlowPair _ _ _ _ _ _ hne]
    rw [if_neg (fun hh => hne hh.1.symm)]
    rw [if_pos ⟨rfl, rfl, hE'⟩]

/-- Witness: `C8_skew_symmetry` applied to the line network with concrete
fuel, the hypotheses discharged by evaluation. -/
theorem C8_skew_symmetry_witness :
    WF lineG ∧ FlowsClear lineG ∧
    SkewSymm (edmonds_karp_steps 10 lineG "S" "T").1 ∧
    SkewSymm (dinic_apply 10 lineG "S" "T").1 ∧
    SkewSymm (push_relabel_apply 50 lineG "S" "T").1 := by
  have h1 : WF lineG := by decide
  have h2 : FlowsClear lineG := by with_unfolding_all decide
  have h := C8_skew_symmetry lineG "S" "T" 10 10 50 h1 h2
  exact ⟨h1, h2, h.1, h.2.1, h.2.2.1⟩

/-! ## Claim C7: characterization of `min_cut_report` -/

/-- Residual reachability: the reflexive-transitive closure of "follow an
edge with positive residual capacity", exactly the edges the DFS of
`min_cut_report` (lines 195–202) traverses. -/
inductive ResReach (G : Graph) (s : Node) : Node → Prop
  | refl : ResReach G s s
  | step {x y : Node} : ResReach G s x → y ∈ G.succList x →
      0 < G.capD x y - G.flowD x y → ResReach G s y

/-- Termination potential of the DFS: stack size plus, for every unvisited
node, one pop plus its possible pushes. -/
def reachPot (G : Graph) (visited stack : List Node) : ℕ :=
  stack.length +
    ((G.nodes.filter (fun w => decide (w ∉ visited))).map
      (fun w => 1 + (G.succList w).length)).sum

theorem sum_map_filter_ne (f : Node → ℕ) :
    ∀ (U : List Node), U.Nodup → ∀ u ∈ U,
      ((U.filter (fun w => w != u)).map f).sum + f u = (U.map f).sum := by
  intro U
  induction U with
  | nil => intro _ u hu; cases hu
  | cons x U ih =>
    intro hnd u hu
    rw [List.nodup_cons] at hnd
    rcases List.mem_cons.mp hu with hux | huU
    · subst hux
      rw [List.filter_cons]
      simp only [bne_self_eq_false, Bool.false_eq_true, if_false]
      have hUeq : U.filter (fun w => w != u) = U :=
        List.filter_eq_self.mpr (fun a ha => by
          simp only [bne_iff_ne, ne_eq, decide_eq_true_eq]
          intro hcontra
          exact hnd.1 (hcontra ▸ ha))
      rw [hUeq, List.map_cons, List.sum_cons]
      ring
    · rw [List.filter_cons]
      have hxu : (x != u) = true := by
        simp only [bne_iff_ne, ne_eq]
        intro hcontra
        exact hnd.1 (hcontra ▸ huU)
      rw [if_pos hxu]
      rw [List.map_cons, List.sum_cons, List.map_cons, List.sum_cons]
      have := ih hnd.2 u huU
      omega

theorem mem_nodes_of_mem_succList {G : Graph} (hWF : WF G) {x y : Node}
    (h : y ∈ G.succList x) : y ∈ G.nodes := by
  unfold Graph.succList Graph.succPairs at h
  cases hfind : G.adj.find? (fun p => p.1 == x) with
  | none => rw [hfind] at h; simp at h
  | some p =>
    rw [hfind] at h
    rw [List.mem_map] at h
    obtain ⟨q, hq, hqy⟩ := h
    have := hWF.2.2 p (List.mem_of_find?_eq_some hfind) q hq
    unfold Graph.hasNode at this
    unfold Graph.nodes
    cases hfind2 : G.adj.find? (fun r => r.1 == q.1) with
    | none => rw [hfind2] at this; simp at this
    | some r =>
      have hr : r.1 = q.1 := by
        have := List.find?_some hfind2
        simpa using this
      rw [List.mem_map]
      exact ⟨r, List.mem_of_find?_eq_some hfind2, by rw [hr, hqy]⟩

/-- The potential strictly decreases when a fresh node is visited. -/
theorem reachPot_fresh {G : Graph} (hnd : G.nodes.Nodup) {u : Node}
    (huN : u ∈ G.nodes) {visited : List Node} (hu : u ∉ visited)
    (rest pushes : List Node) (hlen : pushes.length ≤ (G.succList u).length) :
    reachPot G (visited ++ [u]) (pushes ++ rest) + 1 ≤
      reachPot G visited (u :: rest) := by
  unfold reachPot
  have hfilter : G.nodes.filter (fun w => decide (w ∉ visited ++ [u])) =
      (G.nodes.filter (fun w => decide (w ∉ visited))).filter (fun w => w != u) := by
    rw [List.filter_filter]
    refine List.filter_congr (fun x _ => ?_)
    by_cases hxv : x ∈ visited
    · simp [hxv]
    · by_cases hxu : x = u
      · subst hxu; simp
      · simp [hxv, hxu]
  rw [hfilter]
  have hsum := sum_map_filter_ne (fun w => 1 + (G.succList w).length)
    (G.nodes.filter (fun w => decide (w ∉ visited)))
    (List.Nodup.filter _ hnd) u
    (List.mem_filter.mpr ⟨huN, by simp [hu]⟩)
  replace hsum :
      (((G.nodes.filter (fun w => decide (w ∉ visited))).filter (fun w => w != u)).map
        (fun w => 1 + (G.succList w).length)).sum + (1 + (G.succList u).length) =
      ((G.nodes.filter (fun w => decide (w ∉ visited))).map
        (fun w => 1 + (G.succList w).length)).sum := hsum
  rw [List.length_append, List.length_cons]
  omega

/-- Combined soundness, completeness-at-exhaustion and closedness of the
min-cut DFS, proved by induction on the fuel with the potential
`reachPot` as the budget. -/
theorem reachLoop_spec (G : Graph) (s : Node) (hWF : WF G) :
    ∀ (fuel : ℕ) (visited stack : List Node),
      reachPot G visited stack ≤ fuel →
      (∀ x ∈ stack, x ∈ G.nodes) →
      (∀ x ∈ visited, ResReach G s x) →
      (∀ x ∈ stack, ResReach G s x) →
      (∀ x ∈ visited, ∀ y, y ∈ G.succList x → 0 < G.capD x y - G.flowD x y →
        y ∈ visited ∨ y ∈ stack) →
      (∀ x ∈ visited, x ∈ reachLoop G fuel visited stack) ∧
      (∀ x ∈ stack, x ∈ reachLoop G fuel visited stack) ∧
      (∀ x ∈ reachLoop G fuel visited stack, ResReach G s x) ∧
      (∀ x ∈ reachLoop G fuel visited stack, ∀ y, y ∈ G.succList x →
        0 < G.capD x y - G.flowD x y → y ∈ reachLoop G fuel visited stack) := by
  intro fuel
  induction fuel with
  | zero =>
    intro visited stack hpot hsn hrv hrs hfr
    have hstack : stack = [] := by
      cases stack with
      | nil => rfl
      | cons a l =>
        exfalso
        unfold reachPot at hpot
        rw [List.length_cons] at hpot
        omega
    subst hstack
    refine ⟨fun x hx => hx, fun x hx => absurd hx (List.not_mem_nil x), hrv,
      fun x hx y hy hres => ?_⟩
    rcases hfr x hx y hy hres with h | h
    · exact h
    · cases h
  | succ n ih =>
    intro visited stack hpot hsn hrv hrs hfr
    cases stack with
    | nil =>
      refine ⟨fun x hx => hx, fun x hx => absurd hx (List.not_mem_nil x), hrv,
        fun x hx y hy hres => ?_⟩
      rcases hfr x hx y hy hres with h | h
      · exact h
      · cases h
    | cons u rest =>
      rw [reachLoop]
      by_cases hu : u ∈ visited
      · rw [if_pos hu]
        have hres2 := ih visited rest ?_ ?_ hrv ?_ ?_
        · refine ⟨hres2.1, ?_, hres2.2.2.1, hres2.2.2.2⟩
          intro x hx
          rcases List.mem_cons.mp hx with hxu | hxr
          · exact hres2.1 x (hxu ▸ hu)
          · exact hres2.2.1 x hxr
        · unfold reachPot at hpot ⊢
          rw [List.length_cons] at hpot
          omega
        · exact fun x hx => hsn x (List.mem_cons_of_mem u hx)
        · exact fun x hx => hrs x (List.mem_cons_of_mem u hx)
        · intro x hx y hy hres
          rcases hfr x hx y hy hres with h | h
          · exact Or.inl h
          · rcases List.mem_cons.mp h with hyu | hyr
            · exact Or.inl (hyu ▸ hu)
            · exact Or.inr hyr
      · rw [if_neg hu]
        have huN : u ∈ G.nodes := hsn u (List.mem_cons_self u rest)
        have huR : ResReach G s u := hrs u (List.mem_cons_self u rest)
        have hres := ih (visited ++ [u])
          (((G.succList u).filter
            (fun v => decide (0 < G.capD u v - G.flowD u v))).reverse ++ rest)
          ?_ ?_ ?_ ?_ ?_
        · refine ⟨?_, ?_, hres.2.2.1, hres.2.2.2⟩
          · intro x hx
            exact hres.1 x (List.mem_append_left _ hx)
          · intro x hx
            rcases List.mem_cons.mp hx with hxu | hxr
            · exact hres.1 x (List.mem_append_right _ (by simp [hxu]))
            · exact hres.2.1 x (List.mem_append_right _ hxr)
        · have hfresh := reachPot_fresh hWF.1 huN hu rest
            (((G.succList u).filter
              (fun v => decide (0 < G.capD u v - G.flowD u v))).reverse)
            (by
              rw [List.length_reverse]
              exact List.length_filter_le _ _)
          omega
        · intro x hx
          rcases List.mem_append.mp hx with hxp | hxr
          · rw [List.mem_reverse] at hxp
            exact mem_nodes_of_mem_succList hWF (List.mem_filter.mp hxp).1
          · exact hsn x (List.mem_cons_of_mem u hxr)
        · intro x hx
          rcases List.mem_append.mp hx with hxv | hxu
          · exact hrv x hxv
          · rw [List.mem_singleton] at hxu
            exact hxu ▸ huR
        · intro x hx
          rcases List.mem_append.mp hx with hxp | hxr
          · rw [List.mem_reverse] at hxp
            have hm := List.mem_filter.mp hxp
            exact ResReach.step huR hm.1 (by simpa using hm.2)
          · exact hrs x (List.mem_cons_of_mem u hxr)
        · intro x hx y hy hyres
          rcases List.mem_append.mp hx with hxv | hxu
          · rcases hfr x hxv y hy hyres with h | h
            · exact Or.inl (List.mem_append_left _ h)
            · rcases List.mem_cons.mp h with hyu | hyr
              · exact Or.inl (List.mem_append_right _ (by simp [hyu]))
              · exact Or.inr (List.mem_append_right _ hyr)
          · rw [List.mem_singleton] at hxu
            subst hxu
            refine Or.inr (List.mem_append_left _ ?_)
            rw [List.mem_reverse]
            exact List.mem_filter.mpr ⟨hy, by simpa using hyres⟩

theorem sum_map_one_add (f : Node → ℕ) :
    ∀ l : List Node, (l.map (fun w => 1 + f w)).sum = l.length + (l.map f).sum := by
  intro l
  induction l with
  | nil => rfl
  | cons x l ih =>
    rw [List.map_cons, List.sum_cons, List.map_cons, List.sum_cons, List.length_cons, ih]
    ring

theorem sum_deg_eq_totalAdj {G : Graph} (hWF : WF G) :
    (G.nodes.map (fun w => (G.succList w).length)).sum = G.totalAdj := by
  unfold Graph.nodes Graph.totalAdj
  rw [List.map_map]
  congr 1
  refine List.map_congr_left (fun p hp => ?_)
  simp only [Function.comp]
  have : G.succPairs p.1 = p.2 := succPairs_eq_of_mem hWF hp
  unfold Graph.succList
  rw [this, List.length_map]

theorem reachPot_init {G : Graph} (hWF : WF G) (s : Node) :
    reachPot G [] [s] ≤ reachFuel G := by
  unfold reachPot reachFuel
  have hfilter : G.nodes.filter (fun w => decide (w ∉ ([] : List Node))) = G.nodes :=
    List.filter_eq_self.mpr (fun a _ => by simp)
  rw [hfilter, sum_map_one_add, sum_deg_eq_totalAdj hWF]
  rw [List.length_singleton]
  omega

/-- The visited set computed by the min-cut DFS is exactly residual
reachability. -/
theorem reachVisited_iff {G : Graph} (hWF : WF G) {s : Node} (hs : s ∈ G.nodes)
    (x : Node) : x ∈ reachLoop G (reachFuel G) [] [s] ↔ ResReach G s x := by
  have hspec := reachLoop_spec G s hWF (reachFuel G) [] [s]
    (reachPot_init hWF s)
    (fun y hy => by rw [List.mem_singleton] at hy; exact hy ▸ hs)
    (fun y hy => absurd hy (List.not_mem_nil y))
    (fun y hy => by rw [List.mem_singleton] at hy; exact hy ▸ ResReach.refl)
    (fun y hy => absurd hy (List.not_mem_nil y))
  constructor
  · exact hspec.2.2.1 x
  · intro hreach
    induction hreach with
    | refl => exact hspec.2.1 s (List.mem_singleton.mpr rfl)
    | step hx hy hres ihx => exact hspec.2.2.2 _ ihx _ hy hres

/-- **C7.**  `min_cut_report` returns exactly the triples
`(u, v, capacity(u,v))` such that `u` is reachable from `s` along edges of
positive residual capacity, `v` is not, the edge `u→v` exists and its
capacity is positive — in particular capacity-0 edges are never reported
even when they cross the cut.  (`WF` is networkx's dictionary-graph shape;
`s` must be a node, since Python raises `KeyError` otherwise.) -/
theorem C7_min_cut_characterization {G : Graph} {s : Node} (hWF : WF G)
    (hs : s ∈ G.nodes) (u v : Node) (c : ℚ) :
    (u, v, c) ∈ min_cut_report G s ↔
      ResReach G s u ∧ ¬ ResReach G s v ∧ v ∈ G.succList u ∧
        c = G.capD u v ∧ 0 < c := by
  unfold min_cut_report
  rw [List.mem_flatMap]
  constructor
  · rintro ⟨u', hu', hmem⟩
    rw [List.mem_map] at hmem
    obtain ⟨v', hv', heq⟩ := hmem
    rw [Prod.mk.injEq, Prod.mk.injEq] at heq
    obtain ⟨hequ, heqv, heqc⟩ := heq
    subst hequ
    subst heqv
    subst heqc
    rw [List.mem_filter] at hv'
    obtain ⟨hsucc, hcond⟩ := hv'
    rw [Bool.and_eq_true, decide_eq_true_eq, decide_eq_true_eq] at hcond
    refine ⟨(reachVisited_iff hWF hs u').mp hu', ?_, hsucc, rfl, hcond.2⟩
    intro hcontra
    exact hcond.1 ((reachVisited_iff hWF hs v').mpr hcontra)
  · rintro ⟨hru, hnrv, hsucc, hc, hpos⟩
    subst hc
    refine ⟨u, (reachVisited_iff hWF hs u).mpr hru, ?_⟩
    rw [List.mem_map]
    refine ⟨v, ?_, rfl⟩
    rw [List.mem_filter]
    refine ⟨hsucc, ?_⟩
    rw [Bool.and_eq_true, decide_eq_true_eq, decide_eq_true_eq]
    exact ⟨fun hcontra => hnrv ((reachVisited_iff hWF hs v).mp hcontra), hpos⟩

/-- Witness: `C7_min_cut_characterization` on the solved line network, at
the single reported cut edge `(A, T, 3)`: `A` is residually reachable from
`S`, `T` is not. -/
theorem C7_min_cut_characterization_witness :
    ResReach (edmonds_karp_steps 10 lineG "S" "T").1 "S" "A" ∧
    ¬ ResReach (edmonds_karp_steps 10 lineG "S" "T").1 "S" "T" := by
  have hWF : WF (edmonds_karp_steps 10 lineG "S" "T").1 := by
    with_unfolding_all decide
  have hs : "S" ∈ (edmonds_karp_steps 10 lineG "S" "T").1.nodes := by
    with_unfolding_all decide
  have hmem : ("A", "T", (3 : ℚ)) ∈
      min_cut_report (edmonds_karp_steps 10 lineG "S" "T").1 "S" := by
    with_unfolding_all decide
  have h := (C7_min_cut_characterization hWF hs "A" "T" 3).mp hmem
  exact ⟨h.1, h.2.1⟩

/-! ## Claim C5 (amended): what actually happens on unknown nodes -/

theorem hasNode_iff_mem_nodes {g : Graph} {u : Node} :
    g.hasNode u = true ↔ u ∈ g.nodes := by
  unfold Graph.hasNode Graph.nodes
  constructor
  · intro h
    rw [Option.isSome_iff_exists] at h
    obtain ⟨p, hp⟩ := h
    have hpu : p.1 = u := by
      have := List.find?_some hp
      simpa using this
    exact List.mem_map.mpr ⟨p, List.mem_of_find?_eq_some hp, hpu⟩
  · intro h
    rw [List.mem_map] at h
    obtain ⟨p, hp, hpu⟩ := h
    rw [List.find?_isSome]
    exact ⟨p, hp, by simp [hpu]⟩

theorem WF_mapFlows {g : Graph} (f : EdgeData → EdgeData) (hWF : WF g) :
    WF (mapFlows g f) := by
  obtain ⟨hnd, hinner, htgt⟩ := hWF
  refine ⟨?_, ?_, ?_⟩
  · show (mapFlows g f).nodes.Nodup
    rw [nodes_mapFlows]
    exact hnd
  · intro p hp
    obtain ⟨p0, hp0, heq⟩ := List.mem_map.mp hp
    subst heq
    rw [List.map_map]
    have he : p0.2.map (Prod.fst ∘ fun q => (q.1, f q.2)) = p0.2.map Prod.fst :=
      List.map_congr_left (fun q _ => rfl)
    rw [he]
    exact hinner p0 hp0
  · intro p hp q hq
    obtain ⟨p0, hp0, heq⟩ := List.mem_map.mp hp
    subst heq
    rw [hasNode_mapFlows]
    obtain ⟨q0, hq0, hqeq⟩ := List.mem_map.mp hq
    subst hqeq
    exact htgt p0 hp0 q0 hq0

/-- Count of nodes not yet visited. -/
def unvisCount (G : Graph) (visited : List Node) : ℕ :=
  (G.nodes.filter (fun w => decide (w ∉ visited))).length

theorem length_filter_ne :
    ∀ (U : List Node), U.Nodup → ∀ u ∈ U,
      (U.filter (fun w => w != u)).length + 1 = U.length := by
  intro U
  induction U with
  | nil => intro _ u hu; cases hu
  | cons x U ih =>
    intro hnd u hu
    rw [List.nodup_cons] at hnd
    rcases List.mem_cons.mp hu with hux | huU
    · subst hux
      rw [List.filter_cons]
      simp only [bne_self_eq_false, Bool.false_eq_true, if_false]
      have hUeq : U.filter (fun w => w != u) = U :=
        List.filter_eq_self.mpr (fun a ha => by
          simp only [bne_iff_ne, ne_eq, decide_eq_true_eq]
          intro hcontra
          exact hnd.1 (hcontra ▸ ha))
      rw [hUeq, List.length_cons]
    · rw [List.filter_cons]
      have hxu : (x != u) = true := by
        simp only [bne_iff_ne, ne_eq]
        intro hcontra
        exact hnd.1 (hcontra ▸ huU)
      rw [if_pos hxu, List.length_cons, List.length_cons]
      rw [← ih hnd.2 u huU]

theorem unvisCount_cons {G : Graph} (hnd : G.nodes.Nodup) {v : Node}
    (hvN : v ∈ G.nodes) {visited : List Node} (hv : v ∉ visited) :
    unvisCount G (v :: visited) + 1 = unvisCount G visited := by
  unfold unvisCount
  have hfilter : G.nodes.filter (fun w => decide (w ∉ v :: visited)) =
      (G.nodes.filter (fun w => decide (w ∉ visited))).filter (fun w => w != v) := by
    rw [List.filter_filter]
    refine List.filter_congr (fun x _ => ?_)
    by_cases hxv : x ∈ visited
    · simp [hxv]
    · by_cases hxu : x = v
      · subst hxu; simp
      · simp [hxv, hxu]
  rw [hfilter]
  exact length_filter_ne _ (List.Nodup.filter _ hnd) v
    (List.mem_filter.mpr ⟨hvN, by simp [hv]⟩)

/-- The scan of one BFS layer, when the sink is not a node of the graph:
it cannot return `True` (every scanned key is a node), and it preserves the
termination budget `|queue| + |unvisited nodes|`. -/
theorem bfsScan_no_sink {G : Graph} {t u : Node} (hnd : G.nodes.Nodup)
    (ht : t ∉ G.nodes) :
    ∀ (vs : List Node), (∀ v ∈ vs, v ∈ G.nodes) →
    ∀ (visited : List Node) (parent : List (Node × Node)) (q : List Node),
      ∃ visited' parent' q',
        bfsScan G t u vs visited parent q = (false, visited', parent', q') ∧
        q'.length + unvisCount G visited' ≤ q.length + unvisCount G visited ∧
        (∀ x ∈ q', x ∈ q ∨ x ∈ G.nodes) := by
  intro vs
  induction vs with
  | nil =>
    intro _ visited parent q
    exact ⟨visited, parent, q, rfl, le_refl _, fun x hx => Or.inl hx⟩
  | cons v vs ih =>
    intro hvs visited parent q
    have hvN : v ∈ G.nodes := hvs v (List.mem_cons_self v vs)
    have hvs' : ∀ w ∈ vs, w ∈ G.nodes := fun w hw => hvs w (List.mem_cons_of_mem v hw)
    unfold bfsScan
    split
    · next hc =>
      have hvt : (v == t) = false := by
        simp only [beq_eq_false_iff_ne, ne_eq]
        intro hcontra
        exact ht (hcontra ▸ hvN)
      rw [hvt]
      simp only [Bool.false_eq_true, if_false]
      obtain ⟨visited', parent', q', heq, hle, hmem⟩ :=
        ih hvs' (v :: visited) ((v, u) :: parent) (q ++ [v])
      refine ⟨visited', parent', q', heq, ?_, ?_⟩
      · have hcons := unvisCount_cons hnd hvN hc.1
        calc q'.length + unvisCount G visited'
            ≤ (q ++ [v]).length + unvisCount G (v :: visited) := hle
          _ = q.length + unvisCount G visited := by
              rw [List.length_append, List.length_singleton]
              omega
      · intro x hx
        rcases hmem x hx with hxq | hxN
        · rcases List.mem_append.mp hxq with h1 | h2
          · exact Or.inl h1
          · have : x = v := List.mem_singleton.mp h2
            exact Or.inr (this ▸ hvN)
        · exact Or.inr hxN
    · exact ih hvs' visited parent q

/-- When the sink is absent from the graph and every queued node is a node
of the graph, `bfsLoop` terminates normally with `False` given fuel
exceeding `|queue| + |unvisited nodes|`. -/
theorem bfsLoop_no_sink {G : Graph} {t : Node} (hWF : WF G) (ht : t ∉ G.nodes) :
    ∀ (fuel : ℕ) (visited : List Node) (parent : List (Node × Node)) (q : List Node),
      (∀ x ∈ q, x ∈ G.nodes) →
      q.length + unvisCount G visited < fuel →
      ∃ parent', bfsLoop G t fuel visited parent q = .ok (false, parent') := by
  intro fuel
  induction fuel with
  | zero => intro _ _ _ _ hlt; omega
  | succ fuel ih =>
    intro visited parent q hq hlt
    match q with
    | [] => exact ⟨parent, rfl⟩
    | u :: rest =>
      have huN : u ∈ G.nodes := hq u (List.mem_cons_self u rest)
      have hhas : G.hasNode u = true := hasNode_iff_mem_nodes.mpr huN
      unfold bfsLoop
      rw [hhas]
      simp only [if_true]
      obtain ⟨visited', parent', q', heq, hle, hmem⟩ :=
        bfsScan_no_sink hWF.1 ht (G.succList u)
          (fun v hv => mem_nodes_of_mem_succList hWF hv) visited parent rest
      rw [heq]
      refine ih visited' parent' q' ?_ ?_
      · intro x hx
        rcases hmem x hx with hxq | hxN
        · exact hq x (List.mem_cons_of_mem u hxq)
        · exact hxN
      · rw [List.length_cons] at hlt
        omega

/-- `unvisCount` with nothing visited is the number of nodes. -/
theorem unvisCount_nil (G : Graph) : unvisCount G [] = G.nodes.length := by
  unfold unvisCount
  rw [List.filter_eq_self.mpr (fun a _ => by simp)]

theorem bfsLoop_pop_absent {G : Graph} {t u : Node} {fuel : ℕ}
    {visited : List Node} {parent : List (Node × Node)} {rest : List Node}
    (h : G.hasNode u = false) :
    bfsLoop G t (fuel + 1) visited parent (u :: rest) = .error "KeyError" := by
  unfold bfsLoop
  rw [h]
  simp

/-- **C5 (amended).**  The solvers perform no node validation.  On a missing
sink, `edmonds_karp_steps` does not fail: it returns normally with an empty
step list and max-flow 0.  On a missing source, it raises `KeyError` inside
the first BFS — and in both cases the graph has already been mutated by
`prepare_graph` and the flow-reset loop: the resulting graph is
`zeroAllFlows (prepare_graph G)`, not the unmodified input. -/
theorem C5_amended_no_validation {G : Graph} (hWF : WF G) (fuel : ℕ)
    (hfuel : 0 < fuel) (s t : Node) :
    (s ∈ G.nodes → t ∉ G.nodes →
      edmonds_karp_steps fuel G s t = (zeroAllFlows (prepare_graph G), .ok ([], 0))) ∧
    (s ∉ G.nodes →
      edmonds_karp_steps fuel G s t = (zeroAllFlows (prepare_graph G), .error "KeyError")) := by
  obtain ⟨n, rfl⟩ : ∃ n, fuel = n + 1 := ⟨fuel - 1, by omega⟩
  set g1 := zeroAllFlows (prepare_graph G) with hg1
  have hnodes : g1.nodes = G.nodes := by
    rw [hg1]
    unfold zeroAllFlows
    rw [nodes_mapFlows, prepare_nodes hWF]
  have hWF1 : WF g1 := WF_mapFlows _ (prepare_WF hWF)
  constructor
  · intro hs ht
    have ht1 : t ∉ g1.nodes := by rw [hnodes]; exact ht
    obtain ⟨parent', hbfs⟩ :
        ∃ parent', bfs g1 s t = .ok (false, parent') := by
      unfold bfs bfsFuel
      refine bfsLoop_no_sink hWF1 ht1 (g1.nodes.length + 2) [s] [] [s] ?_ ?_
      · intro x hx
        rw [List.mem_singleton] at hx
        subst hx
        rw [hnodes]
        exact hs
      · have hle : unvisCount g1 [s] ≤ g1.nodes.length := List.length_filter_le _ _
        rw [List.length_singleton]
        omega
    show ekLoop s t (n + 1) g1 [] 0 = (g1, .ok ([], 0))
    unfold ekLoop
    rw [hbfs]
  · intro hs
    have hhas : g1.hasNode s = false := by
      cases hcase : g1.hasNode s
      · rfl
      · exact absurd (hnodes ▸ hasNode_iff_mem_nodes.mp hcase) hs
    have hbfs : bfs g1 s t = .error "KeyError" := by
      show bfsLoop g1 t (g1.nodes.length + 1 + 1) [s] [] [s] = .error "KeyError"
      exact bfsLoop_pop_absent hhas
    show ekLoop s t (n + 1) g1 [] 0 = (g1, .error "KeyError")
    unfold ekLoop
    rw [hbfs]

theorem C5_amended_no_validation_witness :
    WF lineG ∧ (0 : ℕ) < 5 ∧ ("S" : Node) ∈ lineG.nodes ∧ ("X" : Node) ∉ lineG.nodes ∧
    ("Z" : Node) ∉ lineG.nodes ∧
    edmonds_karp_steps 5 lineG "S" "X" =
      (zeroAllFlows (prepare_graph lineG), .ok ([], 0)) ∧
    edmonds_karp_steps 5 lineG "Z" "T" =
      (zeroAllFlows (prepare_graph lineG), .error "KeyError") :=
  ⟨by with_unfolding_all decide, by decide, by with_unfolding_all decide,
   by with_unfolding_all decide, by with_unfolding_all decide,
   (C5_amended_no_validation (by with_unfolding_all decide) 5 (by decide) "S" "X").1
     (by with_unfolding_all decide) (by with_unfolding_all decide),
   (C5_amended_no_validation (by with_unfolding_all decide) 5 (by decide) "Z" "T").2
     (by with_unfolding_all decide)⟩
